import Mathlib

/-!
Verification development for the CTDopts parameter-model library
(`CTDopts/CTDopts.py`).  The Python 2 source is shallowly embedded:
Python values become the inductive type `PyVal`, fallible operations
return `Except PyErr`, dictionaries are insertion-ordered association
lists, and the XML element trees produced and consumed by the CTD codec
become the inductive type `XElem`.  A second, heap-based embedding of
the argument-dictionary operations appears further below to express the
mutation/aliasing claim about `validate_args`.
-/

/-- Python runtime exceptions that the embedded code can raise.  The
source distinguishes them because `validate_args` catches `KeyError`
and `ValueError` only, letting `TypeError` and friends propagate. -/
inductive PyErr where
  | keyError
  | valueError
  | typeError
  | indexError
  | attributeError
deriving DecidableEq, Repr

/-- Embedding of the Python values that flow through CTDopts: scalars,
lists, `None`, and (nested) dictionaries with string keys.  Python
floats are idealized as rationals; `_InFile`/`_OutFile` values are
`str` subclasses in the source and are embedded as strings. -/
inductive PyVal where
  | none
  | bool (b : Bool)
  | int (n : Int)
  | float (q : Rat)
  | str (s : String)
  | list (xs : List PyVal)
  | dict (entries : List (String × PyVal))

/-- The six CTD parameter types (`TYPE_TO_CTDTYPE` keys).  `input-file`
and `output-file` are string subtypes carrying file-role semantics. -/
inductive PType where
  | int
  | float
  | string
  | boolean
  | inFile
  | outFile
deriving DecidableEq, Repr

/-- A `type` keyword argument: either a Python type object or a CTD
type-name string (both are keys of `CTDTYPE_TO_TYPE`). -/
inductive TypeTok where
  | py (t : PType)
  | name (s : String)
deriving DecidableEq, Repr

/-- `CTDTYPE_TO_TYPE`: resolves a type token to a parameter type;
`none` models a `KeyError` that `Parameter.__init__` turns into
`UnsupportedTypeError`.  Note `double` maps to float. -/
def ctdtypeToType : TypeTok → Option PType
  | .py t => some t
  | .name "int" => some .int
  | .name "float" => some .float
  | .name "double" => some .float
  | .name "string" => some .string
  | .name "boolean" => some .boolean
  | .name "input-file" => some .inFile
  | .name "output-file" => some .outFile
  | .name _ => Option.none

/-- `TYPE_TO_CTDTYPE`: the CTD type attribute written for each type. -/
def typeToCtdtype : PType → String
  | .int => "int"
  | .float => "float"
  | .string => "string"
  | .boolean => "boolean"
  | .inFile => "input-file"
  | .outFile => "output-file"

/-- Python truthiness (`bool(x)`), used by `CAST_BOOLEAN` on non-string
values and by `if value:` tests. -/
def pyTruthy : PyVal → Bool
  | .none => false
  | .bool b => b
  | .int n => n ≠ 0
  | .float q => q ≠ 0
  | .str s => s ≠ ""
  | .list xs => ¬ xs.isEmpty
  | .dict d => ¬ d.isEmpty

/-- Boolean core of `CAST_BOOLEAN`: membership of a string in
`('true', 'True', '1')`, Python `bool()` for every other value. -/
def castBooleanB (v : PyVal) : Bool :=
  match v with
  | .str s => (s = "true" ∨ s = "True" ∨ s = "1" : Bool)
  | v => pyTruthy v

/-- `CAST_BOOLEAN`: the module's dedicated string-to-bool caster. -/
def castBoolean (v : PyVal) : PyVal := .bool (castBooleanB v)

/-- Character code of the ASCII apostrophe, used by `pyRepr`. -/
def quoteChar : Char := Char.ofNat 39

/-- Left brace / right brace as strings, used by `pyRepr` for dicts. -/
def lbrace : String := String.singleton (Char.ofNat 123)

/-- Right brace as a string. -/
def rbrace : String := String.singleton (Char.ofNat 125)

/-- Least `k ≤ fuel` with `d ∣ 10 ^ k`, if any. -/
def decPow (d : Nat) (fuel : Nat) : Option Nat :=
  match fuel with
  | 0 => if d ∣ 1 then some 0 else Option.none
  | fuel + 1 =>
      match decPow d fuel with
      | some k => some k
      | Option.none => if d ∣ 10 ^ (fuel + 1) then some (fuel + 1) else Option.none

/-- Decimal string of a rational, exact when the denominator divides a
power of ten (every value a Python float can hold is of this form),
otherwise a fraction spelling that no Python float produces. -/
def floatStr (q : Rat) : String :=
  if q.den = 1 then toString q.num ++ ".0"
  else
    match decPow q.den 100 with
    | some k =>
        let scaled : Int := q.num * ((10 : Int) ^ k) / (q.den : Int)
        let neg : Bool := scaled < 0
        let mag : Nat := scaled.natAbs
        let digits : String := Nat.toDigits 10 mag |>.asString
        let padded : String :=
          if digits.length ≤ k then
            String.mk (List.replicate (k + 1 - digits.length) (Char.ofNat 48)) ++ digits
          else digits
        let ip : String := padded.take (padded.length - k)
        let fp : String := padded.drop (padded.length - k)
        (if neg then "-" else "") ++ ip ++ "." ++ fp
    | Option.none => toString q.num ++ "/" ++ toString q.den

mutual

/-- Python 2 `str()` of a value.  Floats print as exact decimal when
terminating (Python prints a rounded decimal; the claims never equate
the non-terminating case).  For containers the source's `repr`-based
formatting is reproduced structurally. -/
def pyStr : PyVal → String
  | .none => "None"
  | .bool b => if b then "True" else "False"
  | .int n => toString n
  | .float q => floatStr q
  | .str s => s
  | .list xs => "[" ++ String.intercalate ", " (pyReprList xs) ++ "]"
  | .dict d => lbrace ++ String.intercalate ", " (pyReprEntries d) ++ rbrace

/-- Python 2 `repr()` of a value (list/dict elements print with repr;
on the scalar types repr prints like str, except strings, which are
quoted). -/
def pyRepr : PyVal → String
  | .str s => String.singleton quoteChar ++ s ++ String.singleton quoteChar
  | .list xs => "[" ++ String.intercalate ", " (pyReprList xs) ++ "]"
  | .dict d => lbrace ++ String.intercalate ", " (pyReprEntries d) ++ rbrace
  | .none => "None"
  | .bool b => if b then "True" else "False"
  | .int n => toString n
  | .float q => floatStr q

/-- repr of each element of a list. -/
def pyReprList : List PyVal → List String
  | [] => []
  | v :: vs => pyRepr v :: pyReprList vs

/-- repr of each entry of a dict. -/
def pyReprEntries : List (String × PyVal) → List String
  | [] => []
  | (k, v) :: es =>
      (String.singleton quoteChar ++ k ++ String.singleton quoteChar ++ ": " ++ pyRepr v)
        :: pyReprEntries es

end

/-- Suffix test on character lists (`str.endswith`). -/
def listEndsWith (s t : List Char) : Bool :=
  if t.length ≤ s.length then s.drop (s.length - t.length) == t else false

/-- Python `s.endswith(t)`. -/
def pyEndsWith (s t : String) : Bool := listEndsWith s.data t.data

/-- Helper for `splitChar`, accumulating the current piece reversed. -/
def splitCharAux (sep : Char) : List Char → List Char → List String
  | [], acc => [String.mk acc.reverse]
  | c :: rest, acc =>
      if c = sep then String.mk acc.reverse :: splitCharAux sep rest []
      else splitCharAux sep rest (c :: acc)

/-- Python `s.split(sep)` for a one-character separator (the only form
the source uses); `''.split(',') == ['']`. -/
def splitChar (sep : Char) (s : String) : List String :=
  splitCharAux sep s.data []

/-- Python whitespace test for `strip()`. -/
def isPySpace (c : Char) : Bool :=
  c = ' ' ∨ c = '\t' ∨ c = '\n' ∨ c = '\r'

/-- Python `s.strip()`. -/
def pyStrip (s : String) : String :=
  String.mk (((s.data.dropWhile isPySpace).reverse.dropWhile isPySpace).reverse)

/-- Python `s.replace('*.', '')`: drops every (non-overlapping,
left-to-right) occurrence of the two-character pattern. -/
def dropStarDot : List Char → List Char
  | '*' :: '.' :: rest => dropStarDot rest
  | c :: rest => c :: dropStarDot rest
  | [] => []

/-- Parses an optional sign followed by decimal digits; the core of
Python 2 `int(str)`.  Returns `none` on any malformed input
(a `ValueError` at the call sites). -/
def parseDigits (cs : List Char) : Option Nat :=
  match cs with
  | [] => Option.none
  | _ =>
    cs.foldl (fun acc c =>
      match acc with
      | some n => if c.isDigit then some (n * 10 + (c.toNat - 48)) else Option.none
      | Option.none => Option.none) (some 0)

/-- Python 2 `int(s)`: optional surrounding whitespace, optional sign,
then decimal digits. -/
def pyParseInt (s : String) : Option Int :=
  let cs := (pyStrip s).data
  match cs with
  | '-' :: rest => (parseDigits rest).map (fun n => -(n : Int))
  | '+' :: rest => (parseDigits rest).map (fun n => (n : Int))
  | rest => (parseDigits rest).map (fun n => (n : Int))

/-- Splits the digit part of a float literal at the decimal point. -/
def splitFrac (cs : List Char) : Option (Nat × Nat × Nat) :=
  match cs.span (fun c => c ≠ '.') with
  | (ip, []) => (parseDigits ip).map (fun n => (n, 0, 0))
  | (ip, _ :: fp) =>
      let ipn : Option Nat := if ip.isEmpty then some 0 else parseDigits ip
      let fpn : Option Nat := if fp.isEmpty then some 0 else parseDigits fp
      match ipn, fpn with
      | some a, some b => some (a, b, fp.length)
      | _, _ => Option.none

/-- Python 2 `float(s)`: optional whitespace and sign, digits with an
optional fractional part (exponents, `inf` and `nan` spellings are not
exercised by this code base and parse as errors). -/
def pyParseFloat (s : String) : Option Rat :=
  let cs := (pyStrip s).data
  let build : Bool → List Char → Option Rat := fun neg rest =>
    (splitFrac rest).map (fun p =>
      let q : Rat := (p.1 : Rat) + (p.2.1 : Rat) / ((10 : Rat) ^ p.2.2)
      if neg then -q else q)
  match cs with
  | '-' :: rest => if rest.isEmpty then Option.none else build true rest
  | '+' :: rest => if rest.isEmpty then Option.none else build false rest
  | rest => if rest.isEmpty then Option.none else build false rest

/-- Rational truncation toward zero, Python `int(float)`. -/
def ratTrunc (q : Rat) : Int :=
  if q ≥ 0 then q.floor else -((-q).floor)

/-- Python `t(v)` for each CTD parameter type: `int()`, `float()`,
`str()` (also for the `_InFile`/`_OutFile` string subclasses) and
`bool()`.  Unparseable strings raise `ValueError`; `None` and
containers raise `TypeError` for the numeric casts; `str()` and
`bool()` are total. -/
def pyCast (t : PType) (v : PyVal) : Except PyErr PyVal :=
  match t with
  | .int =>
      match v with
      | .int n => .ok (.int n)
      | .bool b => .ok (.int (if b then 1 else 0))
      | .float q => .ok (.int (ratTrunc q))
      | .str s =>
          match pyParseInt s with
          | some n => .ok (.int n)
          | Option.none => .error .valueError
      | _ => .error .typeError
  | .float =>
      match v with
      | .int n => .ok (.float (n : Rat))
      | .bool b => .ok (.float (if b then 1 else 0))
      | .float q => .ok (.float q)
      | .str s =>
          match pyParseFloat s with
          | some q => .ok (.float q)
          | Option.none => .error .valueError
      | _ => .error .typeError
  | .boolean => .ok (.bool (pyTruthy v))
  | _ => .ok (.str (pyStr v))

/-- The type caster `validate_args` uses: the parameter's type, except
booleans which use `CAST_BOOLEAN` (never fails). -/
def validateCast (t : PType) (v : PyVal) : Except PyErr PyVal :=
  if t = .boolean then .ok (castBoolean v) else pyCast t v

/-- Python iteration over a value, as used by `map(f, x)` and by
`extend`: lists yield elements, strings yield one-character strings,
dicts yield their keys; other values raise `TypeError`. -/
def pyIter (v : PyVal) : Except PyErr (List PyVal) :=
  match v with
  | .list xs => .ok xs
  | .str s => .ok (s.data.map (fun c => .str (String.singleton c)))
  | .dict d => .ok (d.map (fun kv => .str kv.1))
  | _ => .error .typeError

/-- Eager elementwise application, stopping at the first exception
(the recursion Python 2's `map` performs over a list). -/
def exMapM (f : PyVal → Except PyErr PyVal) : List PyVal → Except PyErr (List PyVal)
  | [] => .ok []
  | x :: xs =>
      match f x with
      | .ok y =>
          match exMapM f xs with
          | .ok ys => .ok (y :: ys)
          | .error e => .error e
      | .error e => .error e

/-- `map(f, v)` for a fallible `f`: Python 2 `map` builds a list
eagerly, stopping at the first exception. -/
def pyMapM (f : PyVal → Except PyErr PyVal) (v : PyVal) : Except PyErr PyVal :=
  match pyIter v with
  | .ok xs =>
      match exMapM f xs with
      | .ok ys => .ok (.list ys)
      | .error e => .error e
  | .error e => .error e

/-- First binding of `k` in an association-list dictionary. -/
def dictGet (d : List (String × PyVal)) (k : String) : Option PyVal :=
  match d with
  | [] => Option.none
  | (k', v) :: rest => if k' = k then some v else dictGet rest k

/-- `d[k] = v` on an insertion-ordered dictionary: replaces the
existing binding in place or appends a new one. -/
def dictSet (d : List (String × PyVal)) (k : String) (v : PyVal) :
    List (String × PyVal) :=
  match d with
  | [] => [(k, v)]
  | (k', w) :: rest => if k' = k then (k, v) :: rest else (k', w) :: dictSet rest k v

/-- `get_nested_key`: successive indexing `res = res[key]`.  A missing
key raises `KeyError`; indexing a non-dictionary with a string key
raises `TypeError`. -/
def getNested (v : PyVal) (ks : List String) : Except PyErr PyVal :=
  match ks with
  | [] => .ok v
  | k :: rest =>
      match v with
      | .dict d =>
          match dictGet d k with
          | some w => getNested w rest
          | Option.none => .error .keyError
      | _ => .error .typeError

/-- `set_nested_key` on a dictionary value, walking `key_list[:-1]` and
creating missing sub-dictionaries; reaching a non-dictionary value on
the way raises (`TypeError` in all the source's reachable shapes), and
an empty key list raises `IndexError` (`key_list[-1]`). -/
def setNestedGo (d : List (String × PyVal)) (ks : List String) (v : PyVal) :
    Except PyErr (List (String × PyVal)) :=
  match ks with
  | [] => .error .indexError
  | [k] => .ok (dictSet d k v)
  | k :: rest =>
      match dictGet d k with
      | Option.none =>
          match setNestedGo [] rest v with
          | .ok sub => .ok (dictSet d k (.dict sub))
          | .error e => .error e
      | some (.dict d') =>
          match setNestedGo d' rest v with
          | .ok sub => .ok (dictSet d k (.dict sub))
          | .error e => .error e
      | some _ => .error .typeError

/-- Colon-joined lineage (`':'.join(lineage)`), the flat parameter
name used in warnings, exceptions and command-line flags. -/
def joinColon : List String → String
  | [] => ""
  | [s] => s
  | s :: rest => s ++ ":" ++ joinColon rest

/-- Numeric view of a value: Python 2 compares `bool`, `int` and
`float` values numerically across types. -/
def numView : PyVal → Option Rat
  | .bool b => some (if b then 1 else 0)
  | .int n => some (n : Rat)
  | .float q => some q
  | _ => Option.none

mutual

/-- Python 2 `==`.  Numbers compare numerically across `bool`, `int`
and `float`; lists compare elementwise; dictionaries compare as
key-to-value maps (they never hold duplicate keys in Python); values
of different categories are unequal. -/
def pyEq : PyVal → PyVal → Bool
  | .none, .none => true
  | .str s, .str t => s == t
  | .list xs, .list ys => pyEqList xs ys
  | .dict d, .dict e => d.length == e.length && pyEqSub d e
  | a, b =>
      match numView a, numView b with
      | some x, some y => x == y
      | _, _ => false

/-- Elementwise list equality. -/
def pyEqList : List PyVal → List PyVal → Bool
  | [], [] => true
  | x :: xs, y :: ys => pyEq x y && pyEqList xs ys
  | _, _ => false

/-- Every binding of the first dictionary matches one in the second. -/
def pyEqSub : List (String × PyVal) → List (String × PyVal) → Bool
  | [], _ => true
  | (k, v) :: rest, e =>
      (match dictGet e k with
       | some w => pyEq v w
       | Option.none => false) && pyEqSub rest e

end

/-- Category rank for Python 2 cross-type ordering: `None` below
everything, then numbers, then the remaining types by type name
(`dict` < `list` < `str`). -/
def pyRank : PyVal → Nat
  | .none => 0
  | .bool _ => 1
  | .int _ => 1
  | .float _ => 1
  | .dict _ => 2
  | .list _ => 3
  | .str _ => 4

mutual

/-- Python 2 `<`: total, never raises.  Same-category values compare
by content (numbers numerically, strings lexicographically, lists
lexicographically; dictionary ordering is modelled coarsely by size
then entries — no CTDopts code path compares dictionaries). -/
def pyLt : PyVal → PyVal → Bool
  | .str s, .str t => s < t
  | .list xs, .list ys => pyLtList xs ys
  | .dict d, .dict e =>
      d.length < e.length ||
        (d.length == e.length && pyLtEntries d e)
  | a, b =>
      match numView a, numView b with
      | some x, some y => x < y
      | _, _ => pyRank a < pyRank b

/-- Lexicographic list ordering. -/
def pyLtList : List PyVal → List PyVal → Bool
  | [], [] => false
  | [], _ :: _ => true
  | _ :: _, [] => false
  | x :: xs, y :: ys => if pyEq x y then pyLtList xs ys else pyLt x y

/-- Entrywise dictionary ordering (coarse model, see `pyLt`). -/
def pyLtEntries : List (String × PyVal) → List (String × PyVal) → Bool
  | [], _ => false
  | _ :: _, [] => false
  | (k, v) :: d, (k', w) :: e =>
      if k = k' then (if pyEq v w then pyLtEntries d e else pyLt v w)
      else k < k'

end

/-- The three restriction variants: `_NumericRange` (typed optional
bounds), `_Choices` (controlled vocabulary) and `_FileFormat`
(filename extensions). -/
inductive Restriction where
  | numericRange (t : PType) (lo hi : Option PyVal)
  | choices (cs : List PyVal)
  | fileFormat (formats : List String)

/-- `ctd_restriction_string`: the serialized restriction token.
`','.join` over non-string choices raises `TypeError` in Python. -/
def ctdRestrictionString : Restriction → Except PyErr String
  | .numericRange _ lo hi =>
      .ok ((match lo with | some v => pyStr v | Option.none => "") ++ ":" ++
           (match hi with | some v => pyStr v | Option.none => ""))
  | .choices cs => do
      let strs ← cs.mapM (fun c =>
        match c with
        | .str s => Except.ok s
        | _ => Except.error PyErr.typeError)
      .ok (String.intercalate "," strs)
  | .fileFormat fs => .ok (String.intercalate "," (fs.map (fun f => "*." ++ f)))

/-- `_single_check` of each restriction variant.  Numeric ranges test
`value < n_min` / `value > n_max` with Python's total `<`; choices test
membership; file formats test `value.endswith('.' + f)` for each
registered extension, which on a non-string value raises
`AttributeError`. -/
def singleCheck (r : Restriction) (v : PyVal) : Except PyErr Bool :=
  match r with
  | .numericRange _ lo hi =>
      .ok (match lo, hi with
        | some l, _ => if pyLt v l then false else
            (match hi with | some h => !(pyLt h v) | Option.none => true)
        | Option.none, some h => !(pyLt h v)
        | Option.none, Option.none => true)
  | .choices cs => .ok (cs.any (fun c => pyEq v c))
  | .fileFormat fs =>
      match v with
      | .str s => .ok (fs.any (fun f => pyEndsWith s ("." ++ f)))
      | _ => .error .attributeError

/-- `_Restriction.check`: list parameters are checked elementwise, the
value passes iff every element passes. -/
def checkRestriction (r : Restriction) (v : PyVal) : Except PyErr Bool :=
  match v with
  | .list xs => xs.allM (fun x => singleCheck r x)
  | v => singleCheck r v

/-- A constructed `Parameter`: the attributes `Parameter.__init__`
stores (the `parent` back-reference becomes the path at which the
parameter sits in the model tree). -/
structure Param where
  name : String
  type : PType
  tags : List String
  required : Bool
  is_list : Bool
  description : Option String
  advanced : Bool
  default : Option PyVal
  restrictions : Option Restriction

/-- The `tags` keyword argument: a list of strings or a
comma-separated string. -/
inductive TagsIn where
  | ofStr (s : String)
  | ofList (l : List String)

/-- The `file_formats` keyword argument: a list of extensions or a
comma-separated `*.ext` string. -/
inductive FFIn where
  | ofStr (s : String)
  | ofList (l : List String)

/-- The keyword arguments `Parameter.__init__` reads (unknown keyword
arguments are ignored by the source, so they are not modelled). -/
structure ParamKwargs where
  type : Option TypeTok := Option.none
  default : Option PyVal := Option.none
  is_list : Option PyVal := Option.none
  required : Option PyVal := Option.none
  description : Option String := Option.none
  tags : Option TagsIn := Option.none
  advanced : Option PyVal := Option.none
  num_range : Option (Option PyVal × Option PyVal) := Option.none
  choices : Option PyVal := Option.none
  file_formats : Option FFIn := Option.none

/-- Errors raised during model construction: `UnsupportedTypeError`,
`ModelParsingError`, a failed `assert`, or an uncaught Python error. -/
inductive MErr where
  | unsupportedType
  | modelParsing (msg : String)
  | assertionError (msg : String)
  | pyErr (e : PyErr)
deriving DecidableEq, Repr

/-- Normalizes the `tags` argument: a comma-separated string is split
and empty pieces are dropped (`filter(bool, ...)`). -/
def tagsOf : Option TagsIn → List String
  | Option.none => []
  | some (.ofList l) => l
  | some (.ofStr s) => (splitChar ',' s).filter (fun t => t ≠ "")

/-- Normalizes the `file_formats` argument (`_FileFormat.__init__`):
a string is split on commas, `*.` prefixes dropped and whitespace
stripped. -/
def ffParse : FFIn → List String
  | .ofList l => l
  | .ofStr s => (splitChar ',' s).map (fun x => pyStrip (String.mk (dropStarDot x.data)))

/-- Counts the elements of a numeric default that fail to cast with
`ValueError` (the source collects them all into one error message);
any other cast failure aborts immediately. -/
def countBadNumeric (t : PType) : List PyVal → Except MErr Nat
  | [] => .ok 0
  | x :: xs =>
      match pyCast t x with
      | .ok _ => countBadNumeric t xs
      | .error .valueError =>
          match countBadNumeric t xs with
          | .ok n => .ok (n + 1)
          | .error e => .error e
      | .error e => .error (.pyErr e)

/-- `_validate_numerical_defaults`: for `int`/`float` parameters every
element of the provided default (the raw keyword argument, before any
normalization) must cast without `ValueError`; offending elements are
collected and reported in one `ModelParsingError`.  For list
parameters the default is iterated (`extend`), which raises
`TypeError` on non-iterables. -/
def validateNumericalDefaults (t : PType) (is_list : Bool)
    (default : Option PyVal) : Except MErr Unit :=
  match default with
  | Option.none => .ok ()
  | some d =>
      if t = .int ∨ t = .float then
        match (if is_list then pyIter d else .ok [d]) with
        | .error e => .error (.pyErr e)
        | .ok elems =>
            match countBadNumeric t elems with
            | .error e => .error e
            | .ok n =>
                if n > 0 then .error (.modelParsing "invalid numeric default")
                else .ok ()
      else .ok ()

/-- Casts a (present) default to the parameter type, elementwise for
list parameters; errors propagate uncaught. -/
def castDefault (t : PType) (is_list : Bool) :
    Option PyVal → Except PyErr (Option PyVal)
  | Option.none => .ok Option.none
  | some d =>
      if is_list then
        match pyMapM (pyCast t) d with
        | .ok v => .ok (some v)
        | .error e => .error e
      else
        match pyCast t d with
        | .ok v => .ok (some v)
        | .error e => .error e

/-- Casts one `num_range` bound with the parameter type
(`_NumericRange.__init__`); `ValueError` becomes `ModelParsingError`
in `Parameter.__init__`, anything else propagates. -/
def castBound (t : PType) : Option PyVal → Except MErr (Option PyVal)
  | Option.none => .ok Option.none
  | some v =>
      match pyCast t v with
      | .ok w => .ok (some w)
      | .error .valueError => .error (.modelParsing "bad range bound")
      | .error e => .error (.pyErr e)

/-- Builds the restriction from the keyword arguments, in the source's
priority order: `num_range`, then `choices` (cast elementwise with the
parameter type, errors uncaught), then `file_formats`. -/
def mkRestrictions (t : PType) (kw : ParamKwargs) :
    Except MErr (Option Restriction) :=
  match kw.num_range with
  | some (lo, hi) =>
      match castBound t lo with
      | .error e => .error e
      | .ok clo =>
          match castBound t hi with
          | .error e => .error e
          | .ok chi => .ok (some (.numericRange t clo chi))
  | Option.none =>
      match kw.choices with
      | some cvs =>
          match pyMapM (pyCast t) cvs with
          | .error e => .error (.pyErr e)
          | .ok (.list cs) => .ok (some (.choices cs))
          | .ok _ => .ok Option.none
      | Option.none =>
          match kw.file_formats with
          | some ff => .ok (some (.fileFormat (ffParse ff)))
          | Option.none => .ok Option.none

/-- `Parameter.__init__`, step for step: type resolution
(`UnsupportedTypeError` on unknown tokens), tag normalization,
`CAST_BOOLEAN` on `required`/`is_list`/`advanced`, numeric-default
validation, the 1.6.3 compatibility rule turning a default of `''`
(or `[]` for lists) into no default, type-casting the default, the
boolean overrides (`assert` against list booleans, forced
`required = False` and `default = False`), then restrictions. -/
def mkParameter (name : String) (kw : ParamKwargs) : Except MErr Param :=
  match ctdtypeToType (kw.type.getD (.py .string)) with
  | Option.none => .error MErr.unsupportedType
  | some t =>
      let tags := tagsOf kw.tags
      let required0 := castBooleanB ((kw.required).getD (.bool false))
      let isList := castBooleanB ((kw.is_list).getD (.bool false))
      let advanced := castBooleanB ((kw.advanced).getD (.bool false))
      match validateNumericalDefaults t isList kw.default with
      | .error e => .error e
      | .ok _ =>
          let default1 : Option PyVal :=
            match kw.default with
            | some d =>
                if pyEq d (.str "") || (isList && pyEq d (.list [])) then
                  Option.none
                else some d
            | Option.none => Option.none
          match castDefault t isList default1 with
          | .error e => .error (.pyErr e)
          | .ok default2 =>
              if t = .boolean ∧ isList = true then
                .error (MErr.assertionError "Boolean flag cannot be a list type")
              else
                let required1 := if t = .boolean then false else required0
                let default3 :=
                  if t = .boolean then some (PyVal.bool false) else default2
                match mkRestrictions t kw with
                | .error e => .error e
                | .ok restr =>
                    .ok { name := name, type := t, tags := tags,
                          required := required1, is_list := isList,
                          description := kw.description, advanced := advanced,
                          default := default3, restrictions := restr }

/-- A nested argument dictionary. -/
abbrev PyDict := List (String × PyVal)

/-- A node of the parameter model tree: a leaf `Parameter` or a
`ParameterGroup` with its ordered children.  The source's `parent`
back-references become paths computed while walking the tree. -/
inductive PNode where
  | item (p : Param)
  | group (name : String) (description : Option String) (children : List PNode)

/-- The registration name of a node (the key in the owning group's
ordered child dictionary). -/
def nodeName : PNode → String
  | .item p => p.name
  | .group n _ _ => n

mutual

/-- Lineage/parameter pairs of all leaves under a node, in pre-order;
the node's own name heads each lineage (`Parameter.get_lineage` stops
below the parentless root group, which is therefore excluded by
`listParameters`). -/
def leavesOf : PNode → List (List String × Param)
  | .item p => [([p.name], p)]
  | .group n _ cs => (leavesList cs).map (fun e => (n :: e.1, e.2))

/-- Leaves of a list of sibling nodes, in order. -/
def leavesList : List PNode → List (List String × Param)
  | [] => []
  | c :: cs => leavesOf c ++ leavesList cs

end

/-- `CTDModel`: tool name, version, optional descriptive attributes
(whose values can be `None` when read from element text), and the root
parameter group (named `'1'` when built fresh). -/
structure CTDModel where
  name : String
  version : String
  opt_attribs : List (String × Option String)
  parameters : PNode

/-- `CTDModel.list_parameters`: all leaf parameters with their
lineages, in schema order.  The root group itself contributes no
lineage component. -/
def listParameters (m : CTDModel) : List (List String × Param) :=
  match m.parameters with
  | .group _ _ cs => leavesList cs
  | .item _ => []

mutual

/-- Well-formedness of the tree: sibling names are unique at every
level.  This is automatic in the source, where children live in an
`OrderedDict` keyed by name. -/
def wfNode : PNode → Bool
  | .item _ => true
  | .group _ _ cs => wfChildren cs

/-- Well-formedness of a sibling list. -/
def wfChildren : List PNode → Bool
  | [] => true
  | c :: cs =>
      wfNode c && cs.all (fun d => nodeName d ≠ nodeName c) && wfChildren cs

end

/-- Well-formedness of a model: unique sibling names throughout its
parameter tree (automatic for trees built through `add`/`add_group`,
which register children in a name-keyed `OrderedDict`). -/
def wfModel (m : CTDModel) : Bool := wfNode m.parameters

/-- `l₁` is a leading segment (initial run of keys) of `l₂`. -/
def leadsTo : List String → List String → Bool
  | [], _ => true
  | _ :: _, [] => false
  | a :: xs, b :: ys => a == b && leadsTo xs ys

/-- Two lineages are incomparable: neither leads the other.  Distinct
leaves of a well-formed model always have incomparable lineages. -/
def incomp (l₁ l₂ : List String) : Bool := !(leadsTo l₁ l₂) && !(leadsTo l₂ l₁)

/-- The validation warnings `validate_args` can emit (the source
formats them as strings around the colon-joined parameter name). -/
inductive Warn where
  | missing (paramName : String)
  | wrongType (paramName : String)
  | restriction (paramName : String)
deriving DecidableEq, Repr

/-- What a `validate_args` call can raise: the three `ArgumentError`
subclasses (each carrying the offending parameter's colon-joined
lineage, per `ArgumentError.__init__`), or an uncaught Python error. -/
inductive VErr where
  | argumentMissing (paramName : String)
  | argumentType (paramName : String) (v : PyVal)
  | argumentRestriction (paramName : String) (v : PyVal)
  | pyErr (e : PyErr)

/-- The cast `validate_args` applies to a found value: elementwise
`map(typecast, arg)` for list parameters, `typecast(arg)` otherwise. -/
def vCast (p : Param) (arg : PyVal) : Except PyErr PyVal :=
  if p.is_list then pyMapM (validateCast p.type) arg
  else validateCast p.type arg

/-- The restriction step of `validate_args` on the coerced value:
skipped entirely at `enforce_restrictions = 0`; at level 1 a failed
check only warrants a warning (`ok false`); at level 2 it raises
`ArgumentRestrictionError`; a check that itself raises propagates. -/
def restrOutcome (es : Nat) (lin : List String) (p : Param) (v : PyVal) :
    Except VErr Bool :=
  if es ≠ 0 then
    match p.restrictions with
    | some r =>
        match checkRestriction r v with
        | .ok true => .ok true
        | .ok false =>
            if es = 1 then .ok false
            else .error (.argumentRestriction (joinColon lin) v)
        | .error e => .error (.pyErr e)
    | Option.none => .ok true
  else .ok true

/-- Final part of the found-value branch: restriction policy, then
`set_nested_key` into the output dictionary. -/
def finishParam (es : Nat) (lin : List String) (p : Param) (v : PyVal)
    (vd : PyDict) (ws : List Warn) : Except VErr (PyDict × List Warn) :=
  match restrOutcome es lin p v with
  | .ok b =>
      match setNestedGo vd lin v with
      | .ok vd' => .ok (vd', if b then ws else ws ++ [.restriction (joinColon lin)])
      | .error e => .error (.pyErr e)
  | .error e => .error e

/-- Processing of one schema parameter inside `validate_args`: look
the lineage up in the argument dictionary; if found, coerce (keeping
the raw value on `ValueError`, subject to the `enforce_type` policy),
check restrictions (subject to `enforce_restrictions`), and store the
value; if missing, apply the `enforce_required` policy for required
parameters and store the default (possibly `None`) otherwise. -/
def processParam (er et es : Nat) (args : PyDict)
    (st : PyDict × List Warn) (lp : List String × Param) :
    Except VErr (PyDict × List Warn) :=
  let vd := st.1
  let ws := st.2
  let lin := lp.1
  let p := lp.2
  match getNested (.dict args) lin with
  | .error .keyError =>
      if p.required then
        if er = 0 then .ok (vd, ws)
        else if er = 1 then .ok (vd, ws ++ [.missing (joinColon lin)])
        else .error (.argumentMissing (joinColon lin))
      else
        match setNestedGo vd lin (p.default.getD .none) with
        | .ok vd' => .ok (vd', ws)
        | .error e => .error (.pyErr e)
  | .error e => .error (.pyErr e)
  | .ok arg =>
      match vCast p arg with
      | .ok v => finishParam es lin p v vd ws
      | .error .valueError =>
          if et = 0 then finishParam es lin p arg vd ws
          else if et = 1 then
            finishParam es lin p arg vd (ws ++ [.wrongType (joinColon lin)])
          else .error (.argumentType (joinColon lin) arg)
      | .error e => .error (.pyErr e)

/-- The dictionary-level decision `processParam` makes for one
parameter, independent of the output dictionary built so far: raise an
error, store nothing (`none`), or store a value (`some v`). -/
def storedValue (er et es : Nat) (args : PyDict) (lin : List String)
    (p : Param) : Except VErr (Option PyVal) :=
  match getNested (.dict args) lin with
  | .error .keyError =>
      if p.required then
        if er = 0 then .ok Option.none
        else if er = 1 then .ok Option.none
        else .error (.argumentMissing (joinColon lin))
      else .ok (some (p.default.getD .none))
  | .error e => .error (.pyErr e)
  | .ok arg =>
      match vCast p arg with
      | .ok v =>
          (match restrOutcome es lin p v with
           | .ok _ => .ok (some v)
           | .error e => .error e)
      | .error .valueError =>
          if et = 0 then
            (match restrOutcome es lin p arg with
             | .ok _ => .ok (some arg)
             | .error e => .error e)
          else if et = 1 then
            (match restrOutcome es lin p arg with
             | .ok _ => .ok (some arg)
             | .error e => .error e)
          else .error (.argumentType (joinColon lin) arg)
      | .error e => .error (.pyErr e)

/-- Folds `processParam` over a list of parameters, aborting on the
first raised error. -/
def validateAux (er et es : Nat) (args : PyDict) :
    List (List String × Param) → PyDict × List Warn →
    Except VErr (PyDict × List Warn)
  | [], st => .ok st
  | lp :: rest, st =>
      match processParam er et es args st lp with
      | .ok st' => validateAux er et es args rest st'
      | .error e => .error e

/-- `CTDModel.validate_args`: iterates the schema parameters in order
over a freshly created output dictionary. -/
def validateArgs (m : CTDModel) (args : PyDict) (er et es : Nat) :
    Except VErr (PyDict × List Warn) :=
  validateAux er et es args (listParameters m) ([], [])

/-! Dictionary lemmas: reading after nested writes. -/

theorem dictGet_dictSet_same (d : PyDict) (k : String) (v : PyVal) :
    dictGet (dictSet d k v) k = some v := by
  induction d with
  | nil => simp [dictSet, dictGet]
  | cons kv rest ih =>
      by_cases h : kv.1 = k
      · simp [dictSet, dictGet, h]
      · simp [dictSet, dictGet, h, ih]

theorem dictGet_dictSet_ne (d : PyDict) (k k' : String) (v : PyVal)
    (h : k ≠ k') : dictGet (dictSet d k v) k' = dictGet d k' := by
  induction d with
  | nil => simp [dictSet, dictGet, h]
  | cons kv rest ih =>
      by_cases hk : kv.1 = k
      · subst hk; simp [dictSet, dictGet, h, ih]
      · simp [dictSet, dictGet, hk, ih]

theorem getNested_setNestedGo_same (ks : List String) (d d' : PyDict)
    (v : PyVal) (h : setNestedGo d ks v = .ok d') :
    getNested (.dict d') ks = .ok v := by
  induction ks generalizing d d' with
  | nil => simp [setNestedGo] at h
  | cons k rest ih =>
      cases rest with
      | nil =>
          simp only [setNestedGo, Except.ok.injEq] at h
          subst h
          simp [getNested, dictGet_dictSet_same]
      | cons k2 rest2 =>
          cases hg : dictGet d k with
          | none =>
              cases hs : setNestedGo [] (k2 :: rest2) v with
              | error e => simp [setNestedGo, hg, hs] at h
              | ok sub =>
                  simp only [setNestedGo, hg, hs, Except.ok.injEq] at h
                  subst h
                  simpa [getNested, dictGet_dictSet_same] using ih [] sub hs
          | some w =>
              cases w with
              | dict d2 =>
                  cases hs : setNestedGo d2 (k2 :: rest2) v with
                  | error e => simp [setNestedGo, hg, hs] at h
                  | ok sub =>
                      simp only [setNestedGo, hg, hs, Except.ok.injEq] at h
                      subst h
                      simpa [getNested, dictGet_dictSet_same] using ih d2 sub hs
              | none => simp [setNestedGo, hg] at h
              | bool b => simp [setNestedGo, hg] at h
              | int n => simp [setNestedGo, hg] at h
              | float q => simp [setNestedGo, hg] at h
              | str s => simp [setNestedGo, hg] at h
              | list xs => simp [setNestedGo, hg] at h

theorem leadsTo_refl (l : List String) : leadsTo l l = true := by
  induction l with
  | nil => rfl
  | cons a xs ih => simp [leadsTo, ih]

theorem incomp_irrefl (l : List String) : incomp l l = false := by
  simp [incomp, leadsTo_refl]

theorem incomp_symm {l₁ l₂ : List String} (h : incomp l₁ l₂ = true) :
    incomp l₂ l₁ = true := by
  simp only [incomp, Bool.and_eq_true, Bool.not_eq_true'] at h ⊢
  exact ⟨h.2, h.1⟩

/-- Writing at a lineage incomparable with `ks'` does not change what
is read at `ks'`. -/
theorem getNested_setNestedGo_incomp (ks ks' : List String) (d d' : PyDict)
    (v : PyVal) (h : setNestedGo d ks v = .ok d')
    (hinc : incomp ks ks' = true) :
    getNested (.dict d') ks' = getNested (.dict d) ks' := by
  induction ks generalizing d d' ks' with
  | nil => simp [setNestedGo] at h
  | cons k rest ih =>
      cases ks' with
      | nil => simp [incomp, leadsTo] at hinc
      | cons k' rest' =>
          by_cases hkk : k = k'
          · subst hkk
            -- same head: both tails are nonempty and incomparable
            have hinc' : incomp rest rest' = true := by
              simp only [incomp, leadsTo, beq_self_eq_true, Bool.true_and] at hinc ⊢
              exact hinc
            cases rest with
            | nil =>
                simp only [incomp, leadsTo, Bool.and_eq_true,
                  Bool.not_eq_true'] at hinc'
                simp [leadsTo] at hinc'
            | cons k2 rest2 =>
                cases rest' with
                | nil =>
                    simp only [incomp, Bool.and_eq_true, Bool.not_eq_true'] at hinc'
                    simp [leadsTo] at hinc'
                | cons k2' rest2' =>
                    cases hg : dictGet d k with
                    | none =>
                        cases hs : setNestedGo [] (k2 :: rest2) v with
                        | error e => simp [setNestedGo, hg, hs] at h
                        | ok sub =>
                            simp only [setNestedGo, hg, hs, Except.ok.injEq] at h
                            subst h
                            simp only [getNested, dictGet_dictSet_same, hg]
                            have := ih (k2' :: rest2') [] sub hs hinc'
                            simp only [getNested] at this
                            rw [this]
                            simp [dictGet]
                    | some w =>
                        cases w with
                        | dict d2 =>
                            cases hs : setNestedGo d2 (k2 :: rest2) v with
                            | error e => simp [setNestedGo, hg, hs] at h
                            | ok sub =>
                                simp only [setNestedGo, hg, hs, Except.ok.injEq] at h
                                subst h
                                simp only [getNested, dictGet_dictSet_same, hg]
                                exact ih (k2' :: rest2') d2 sub hs hinc'
                        | none => simp [setNestedGo, hg] at h
                        | bool b => simp [setNestedGo, hg] at h
                        | int n => simp [setNestedGo, hg] at h
                        | float q => simp [setNestedGo, hg] at h
                        | str s => simp [setNestedGo, hg] at h
                        | list xs => simp [setNestedGo, hg] at h
          · -- different heads: the write never touches key k'
            have hset : dictGet d' k' = dictGet d k' := by
              cases rest with
              | nil =>
                  simp only [setNestedGo, Except.ok.injEq] at h
                  subst h
                  exact dictGet_dictSet_ne d k k' v hkk
              | cons k2 rest2 =>
                  cases hg : dictGet d k with
                  | none =>
                      cases hs : setNestedGo [] (k2 :: rest2) v with
                      | error e => simp [setNestedGo, hg, hs] at h
                      | ok sub =>
                          simp only [setNestedGo, hg, hs, Except.ok.injEq] at h
                          subst h
                          exact dictGet_dictSet_ne d k k' _ hkk
                  | some w =>
                      cases w with
                      | dict d2 =>
                          cases hs : setNestedGo d2 (k2 :: rest2) v with
                          | error e => simp [setNestedGo, hg, hs] at h
                          | ok sub =>
                              simp only [setNestedGo, hg, hs, Except.ok.injEq] at h
                              subst h
                              exact dictGet_dictSet_ne d k k' _ hkk
                      | none => simp [setNestedGo, hg] at h
                      | bool b => simp [setNestedGo, hg] at h
                      | int n => simp [setNestedGo, hg] at h
                      | float q => simp [setNestedGo, hg] at h
                      | str s => simp [setNestedGo, hg] at h
                      | list xs => simp [setNestedGo, hg] at h
            simp only [getNested, hset]

theorem incomp_cons {l₁ l₂ : List String} (x : String)
    (h : incomp l₁ l₂ = true) : incomp (x :: l₁) (x :: l₂) = true := by
  simp only [incomp, leadsTo, beq_self_eq_true, Bool.true_and] at h ⊢
  exact h

theorem incomp_of_head_ne {x y : String} (l₁ l₂ : List String)
    (h : x ≠ y) : incomp (x :: l₁) (y :: l₂) = true := by
  simp [incomp, leadsTo, h, Ne.symm h]

theorem mem_leavesOf_head (c : PNode) (e : List String × Param)
    (he : e ∈ leavesOf c) : ∃ t, e.1 = nodeName c :: t := by
  cases c with
  | item p =>
      simp only [leavesOf, List.mem_singleton] at he
      subst he
      exact ⟨[], rfl⟩
  | group n d cs =>
      simp only [leavesOf, List.mem_map] at he
      obtain ⟨a, _, rfl⟩ := he
      exact ⟨a.1, rfl⟩

theorem mem_leavesList (cs : List PNode) (e : List String × Param)
    (he : e ∈ leavesList cs) : ∃ c ∈ cs, e ∈ leavesOf c := by
  induction cs with
  | nil => simp [leavesList] at he
  | cons c rest ih =>
      simp only [leavesList, List.mem_append] at he
      cases he with
      | inl h => exact ⟨c, List.mem_cons_self c rest, h⟩
      | inr h =>
          obtain ⟨c', hc', he'⟩ := ih h
          exact ⟨c', List.mem_cons_of_mem c hc', he'⟩

/-- The incomparability relation on lineage/parameter pairs. -/
def lineageIncomp (a b : List String × Param) : Prop := incomp a.1 b.1 = true

mutual

/-- Leaves of a well-formed node have pairwise incomparable lineages. -/
theorem leavesOf_pairwise (n : PNode) (h : wfNode n = true) :
    (leavesOf n).Pairwise lineageIncomp := by
  cases n with
  | item p => simp [leavesOf]
  | group nm d cs =>
      have hp := leavesList_pairwise cs (by simpa [wfNode] using h)
      simp only [leavesOf]
      exact List.Pairwise.map _ (fun a b hab => incomp_cons nm hab) hp

/-- Leaves of a well-formed sibling list have pairwise incomparable
lineages. -/
theorem leavesList_pairwise (cs : List PNode) (h : wfChildren cs = true) :
    (leavesList cs).Pairwise lineageIncomp := by
  cases cs with
  | nil => simp [leavesList]
  | cons c rest =>
      simp only [wfChildren, Bool.and_eq_true] at h
      obtain ⟨⟨hc, hnames⟩, hrest⟩ := h
      have h₁ := leavesOf_pairwise c hc
      have h₂ := leavesList_pairwise rest hrest
      simp only [leavesList]
      rw [List.pairwise_append]
      refine ⟨h₁, h₂, ?_⟩
      intro a ha b hb
      obtain ⟨t₁, ht₁⟩ := mem_leavesOf_head c a ha
      obtain ⟨c', hc', hb'⟩ := mem_leavesList rest b hb
      obtain ⟨t₂, ht₂⟩ := mem_leavesOf_head c' b hb'
      have hne : nodeName c ≠ nodeName c' := by
        have := List.all_eq_true.mp hnames c' hc'
        simp only [decide_eq_true_eq] at this
        exact fun hEq => this hEq.symm
      unfold lineageIncomp
      rw [ht₁, ht₂]
      exact incomp_of_head_ne t₁ t₂ hne

end

/-- The lineage list of a well-formed model is pairwise incomparable
(required parameters at distinct leaves can never shadow each other in
the nested output dictionary). -/
theorem listParameters_pairwise (m : CTDModel) (h : wfModel m = true) :
    (listParameters m).Pairwise lineageIncomp := by
  unfold listParameters
  cases hm : m.parameters with
  | item p => simp
  | group n d cs =>
      apply leavesList_pairwise
      have := h
      unfold wfModel at this
      rw [hm] at this
      simpa [wfNode] using this

/-! Characterization of `processParam` and `validateAux`. -/

theorem finishParam_char {es : Nat} {lin : List String} {p : Param}
    {v : PyVal} {vd vd' : PyDict} {ws ws' : List Warn}
    (h : finishParam es lin p v vd ws = .ok (vd', ws')) :
    (∃ b, restrOutcome es lin p v = .ok b) ∧ setNestedGo vd lin v = .ok vd' ∧
      (∃ t, ws' = ws ++ t) := by
  unfold finishParam at h
  cases hr : restrOutcome es lin p v with
  | error e => simp [hr] at h
  | ok b =>
      rw [hr] at h
      cases hs : setNestedGo vd lin v with
      | error e => simp [hs] at h
      | ok vd2 =>
          rw [hs] at h
          simp only [Except.ok.injEq, Prod.mk.injEq] at h
          refine ⟨⟨b, rfl⟩, by rw [h.1], ?_⟩
          cases b with
          | true => exact ⟨[], by simp [← h.2]⟩
          | false => exact ⟨[.restriction (joinColon lin)], by simp [← h.2]⟩

/-- Forward characterization: a successful `processParam` step is
exactly a successful `storedValue` decision, realized against the
output dictionary (no-op for a skipped parameter, one nested write for
a stored one); warnings are only ever appended. -/
theorem processParam_char {er et es : Nat} {args : PyDict}
    {vd vd' : PyDict} {ws ws' : List Warn} {lin : List String} {p : Param}
    (h : processParam er et es args (vd, ws) (lin, p) = .ok (vd', ws')) :
    (∃ dec, storedValue er et es args lin p = .ok dec ∧
      ((dec = Option.none ∧ vd' = vd) ∨
       (∃ v, dec = some v ∧ setNestedGo vd lin v = .ok vd'))) ∧
    (∃ t, ws' = ws ++ t) := by
  unfold processParam at h
  simp only at h
  cases hg : getNested (.dict args) lin with
  | error e =>
      cases e with
      | keyError =>
          rw [hg] at h
          simp only at h
          by_cases hreq : p.required = true
          · rw [if_pos hreq] at h
            by_cases h0 : er = 0
            · rw [if_pos h0] at h
              simp only [Except.ok.injEq, Prod.mk.injEq] at h
              refine ⟨⟨Option.none, ?_, Or.inl ⟨rfl, h.1.symm⟩⟩,
                ⟨[], by simp [← h.2]⟩⟩
              unfold storedValue
              simp only [hg]
              rw [if_pos hreq, if_pos h0]
            · rw [if_neg h0] at h
              by_cases h1 : er = 1
              · rw [if_pos h1] at h
                simp only [Except.ok.injEq, Prod.mk.injEq] at h
                refine ⟨⟨Option.none, ?_, Or.inl ⟨rfl, h.1.symm⟩⟩,
                  ⟨[.missing (joinColon lin)], h.2.symm⟩⟩
                unfold storedValue
                simp only [hg]
                rw [if_pos hreq, if_neg h0, if_pos h1]
              · rw [if_neg h1] at h; simp at h
          · rw [if_neg hreq] at h
            cases hs : setNestedGo vd lin (p.default.getD .none) with
            | error e => rw [hs] at h; simp at h
            | ok vd2 =>
                rw [hs] at h
                simp only [Except.ok.injEq, Prod.mk.injEq] at h
                refine ⟨⟨some (p.default.getD .none), ?_,
                  Or.inr ⟨_, rfl, by rw [← h.1]; exact hs⟩⟩,
                  ⟨[], by simp [← h.2]⟩⟩
                unfold storedValue
                simp only [hg]
                rw [if_neg hreq]
      | valueError => rw [hg] at h; simp at h
      | typeError => rw [hg] at h; simp at h
      | indexError => rw [hg] at h; simp at h
      | attributeError => rw [hg] at h; simp at h
  | ok arg =>
      rw [hg] at h
      simp only at h
      cases hc : vCast p arg with
      | ok v =>
          rw [hc] at h
          obtain ⟨⟨b, hr⟩, hs, ht⟩ := finishParam_char h
          refine ⟨⟨some v, ?_, Or.inr ⟨v, rfl, hs⟩⟩, ht⟩
          unfold storedValue
          simp only [hg, hc, hr]
      | error e =>
          rw [hc] at h
          cases e with
          | valueError =>
              simp only at h
              have hsvKeep : ∀ b, restrOutcome es lin p arg = .ok b →
                  storedValue er et es args lin p = .ok (some arg) := by
                intro b hr
                unfold storedValue
                simp only [hg, hc]
                by_cases h0 : et = 0
                · rw [if_pos h0, hr]
                · rw [if_neg h0]
                  by_cases h1 : et = 1
                  · rw [if_pos h1, hr]
                  · rw [if_neg h1]
                    rw [if_neg h0] at h
                    rw [if_neg h1] at h
                    simp at h
              by_cases h0 : et = 0
              · rw [if_pos h0] at h
                obtain ⟨⟨b, hr⟩, hs, ht⟩ := finishParam_char h
                exact ⟨⟨some arg, hsvKeep b hr, Or.inr ⟨arg, rfl, hs⟩⟩, ht⟩
              · rw [if_neg h0] at h
                by_cases h1 : et = 1
                · rw [if_pos h1] at h
                  obtain ⟨⟨b, hr⟩, hs, ht⟩ := finishParam_char h
                  obtain ⟨t, htt⟩ := ht
                  exact ⟨⟨some arg, hsvKeep b hr, Or.inr ⟨arg, rfl, hs⟩⟩,
                    ⟨[.wrongType (joinColon lin)] ++ t, by simp [htt]⟩⟩
                · rw [if_neg h1] at h; simp at h
          | keyError => simp at h
          | typeError => simp at h
          | indexError => simp at h
          | attributeError => simp at h

theorem finishParam_ok {es : Nat} {lin : List String} {p : Param}
    {v : PyVal} {vd vd' : PyDict} {b : Bool} (ws : List Warn)
    (hr : restrOutcome es lin p v = .ok b)
    (hs : setNestedGo vd lin v = .ok vd') :
    finishParam es lin p v vd ws =
      .ok (vd', if b then ws else ws ++ [.restriction (joinColon lin)]) := by
  unfold finishParam
  rw [hr, hs]

theorem storedValue_none_inv {er et es : Nat} {args : PyDict}
    {lin : List String} {p : Param}
    (hd : storedValue er et es args lin p = .ok Option.none) :
    getNested (.dict args) lin = .error .keyError ∧ p.required = true ∧
      (er = 0 ∨ er = 1) := by
  unfold storedValue at hd
  cases hg : getNested (.dict args) lin with
  | error e =>
      cases e with
      | keyError =>
          rw [hg] at hd
          simp only at hd
          by_cases hreq : p.required = true
          · rw [if_pos hreq] at hd
            by_cases h0 : er = 0
            · exact ⟨rfl, hreq, Or.inl h0⟩
            · rw [if_neg h0] at hd
              by_cases h1 : er = 1
              · exact ⟨rfl, hreq, Or.inr h1⟩
              · rw [if_neg h1] at hd; simp at hd
          · rw [if_neg hreq] at hd; simp at hd
      | valueError => rw [hg] at hd; simp at hd
      | typeError => rw [hg] at hd; simp at hd
      | indexError => rw [hg] at hd; simp at hd
      | attributeError => rw [hg] at hd; simp at hd
  | ok arg =>
      rw [hg] at hd
      simp only at hd
      cases hc : vCast p arg with
      | ok v =>
          simp only [hc] at hd
          cases hr : restrOutcome es lin p v with
          | ok b => rw [hr] at hd; simp at hd
          | error e => rw [hr] at hd; simp at hd
      | error e =>
          simp only [hc] at hd
          cases e with
          | valueError =>
              simp only at hd
              by_cases h0 : et = 0
              · rw [if_pos h0] at hd
                cases hr : restrOutcome es lin p arg with
                | ok b => rw [hr] at hd; simp at hd
                | error e => rw [hr] at hd; simp at hd
              · rw [if_neg h0] at hd
                by_cases h1 : et = 1
                · rw [if_pos h1] at hd
                  cases hr : restrOutcome es lin p arg with
                  | ok b => rw [hr] at hd; simp at hd
                  | error e => rw [hr] at hd; simp at hd
                · rw [if_neg h1] at hd; simp at hd
          | keyError => simp at hd
          | typeError => simp at hd
          | indexError => simp at hd
          | attributeError => simp at hd

/-- A skipped decision replays on any output dictionary: the step
succeeds and leaves the dictionary unchanged. -/
theorem processParam_of_decision_none {er et es : Nat} {args : PyDict}
    {lin : List String} {p : Param} (vd : PyDict) (ws : List Warn)
    (hd : storedValue er et es args lin p = .ok Option.none) :
    ∃ ws', processParam er et es args (vd, ws) (lin, p) = .ok (vd, ws') := by
  obtain ⟨hg, hreq, her⟩ := storedValue_none_inv hd
  unfold processParam
  simp only [hg]
  rw [if_pos hreq]
  cases her with
  | inl h0 => rw [if_pos h0]; exact ⟨ws, rfl⟩
  | inr h1 =>
      by_cases h0 : er = 0
      · rw [if_pos h0]; exact ⟨ws, rfl⟩
      · rw [if_neg h0, if_pos h1]
        exact ⟨ws ++ [.missing (joinColon lin)], rfl⟩

/-- A stored decision replays on any output dictionary into which the
nested write succeeds. -/
theorem processParam_of_decision_some {er et es : Nat} {args : PyDict}
    {lin : List String} {p : Param} {v : PyVal} {vd vd' : PyDict}
    (ws : List Warn)
    (hd : storedValue er et es args lin p = .ok (some v))
    (hs : setNestedGo vd lin v = .ok vd') :
    ∃ ws', processParam er et es args (vd, ws) (lin, p) = .ok (vd', ws') := by
  unfold storedValue at hd
  unfold processParam
  simp only
  cases hg : getNested (.dict args) lin with
  | error e =>
      cases e with
      | keyError =>
          simp only [hg] at hd ⊢
          by_cases hreq : p.required = true
          · rw [if_pos hreq] at hd
            by_cases h0 : er = 0
            · rw [if_pos h0] at hd; simp at hd
            · rw [if_neg h0] at hd
              by_cases h1 : er = 1
              · rw [if_pos h1] at hd; simp at hd
              · rw [if_neg h1] at hd; simp at hd
          · rw [if_neg hreq] at hd
            simp only [Except.ok.injEq, Option.some.injEq] at hd
            rw [if_neg hreq]
            rw [← hd] at hs
            rw [hs]
            exact ⟨ws, rfl⟩
      | valueError => simp only [hg] at hd; simp at hd
      | typeError => simp only [hg] at hd; simp at hd
      | indexError => simp only [hg] at hd; simp at hd
      | attributeError => simp only [hg] at hd; simp at hd
  | ok arg =>
      simp only [hg] at hd ⊢
      cases hc : vCast p arg with
      | ok w =>
          simp only [hc] at hd ⊢
          cases hr : restrOutcome es lin p w with
          | ok b =>
              rw [hr] at hd
              simp only [Except.ok.injEq, Option.some.injEq] at hd
              subst hd
              exact ⟨_, finishParam_ok ws hr hs⟩
          | error e => rw [hr] at hd; simp at hd
      | error e =>
          simp only [hc] at hd ⊢
          cases e with
          | valueError =>
              simp only at hd ⊢
              by_cases h0 : et = 0
              · rw [if_pos h0] at hd
                rw [if_pos h0]
                cases hr : restrOutcome es lin p arg with
                | ok b =>
                    rw [hr] at hd
                    simp only [Except.ok.injEq, Option.some.injEq] at hd
                    subst hd
                    exact ⟨_, finishParam_ok ws hr hs⟩
                | error e => rw [hr] at hd; simp at hd
              · rw [if_neg h0] at hd
                rw [if_neg h0]
                by_cases h1 : et = 1
                · rw [if_pos h1] at hd
                  rw [if_pos h1]
                  cases hr : restrOutcome es lin p arg with
                  | ok b =>
                      rw [hr] at hd
                      simp only [Except.ok.injEq, Option.some.injEq] at hd
                      subst hd
                      exact ⟨_, finishParam_ok (ws ++ [.wrongType (joinColon lin)]) hr hs⟩
                  | error e => rw [hr] at hd; simp at hd
                · rw [if_neg h1] at hd; simp at hd
          | keyError => simp at hd
          | typeError => simp at hd
          | indexError => simp at hd
          | attributeError => simp at hd

/-- Steps for parameters whose lineages are all incomparable with `L`
do not change what the output dictionary holds at `L`. -/
theorem validateAux_frame {er et es : Nat} {args : PyDict}
    (ps : List (List String × Param)) (st : PyDict × List Warn)
    {out : PyDict} {wsOut : List Warn} (L : List String)
    (h : validateAux er et es args ps st = .ok (out, wsOut))
    (hinc : ∀ lp ∈ ps, incomp lp.1 L = true) :
    getNested (.dict out) L = getNested (.dict st.1) L := by
  induction ps generalizing st with
  | nil =>
      simp only [validateAux, Except.ok.injEq] at h
      subst h
      rfl
  | cons lp rest ih =>
      cases hp : processParam er et es args st lp with
      | error e => simp [validateAux, hp] at h
      | ok st' =>
          simp only [validateAux, hp] at h
          have hrest := ih st' h (fun q hq => hinc q (List.mem_cons_of_mem lp hq))
          rw [hrest]
          obtain ⟨⟨dec, _, hcase⟩, _⟩ :=
            @processParam_char er et es args st.1 st'.1 st.2 st'.2 lp.1 lp.2
              (by rw [← hp])
          cases hcase with
          | inl hno => rw [hno.2]
          | inr hsome =>
              obtain ⟨v, _, hset⟩ := hsome
              exact getNested_setNestedGo_incomp lp.1 L st.1 st'.1 v hset
                (hinc lp (List.mem_cons_self lp rest))

/-- Value characterization of a successful validation run: each
parameter's lineage in the output holds exactly the value its
`storedValue` decision stores; a skipped parameter leaves the start
dictionary's reading at its lineage unchanged. -/
theorem validateAux_value {er et es : Nat} {args : PyDict}
    (ps : List (List String × Param)) (vd : PyDict) (ws : List Warn)
    {out : PyDict} {wsOut : List Warn} {L : List String} {p : Param}
    (h : validateAux er et es args ps (vd, ws) = .ok (out, wsOut))
    (hpair : ps.Pairwise lineageIncomp)
    (hmem : (L, p) ∈ ps) :
    (∀ v, storedValue er et es args L p = .ok (some v) →
        getNested (.dict out) L = .ok v) ∧
    (storedValue er et es args L p = .ok Option.none →
        getNested (.dict out) L = getNested (.dict vd) L) := by
  induction ps generalizing vd ws with
  | nil => simp at hmem
  | cons lp rest ih =>
      cases hp : processParam er et es args (vd, ws) lp with
      | error e => simp [validateAux, hp] at h
      | ok st' =>
          simp only [validateAux, hp] at h
          rw [List.pairwise_cons] at hpair
          rcases List.mem_cons.mp hmem with hEq | hmem'
          · -- the head step is our parameter
            subst hEq
            obtain ⟨⟨dec, hdec, hcase⟩, _⟩ :=
              @processParam_char er et es args vd st'.1 ws st'.2 L p hp
            have hframe : getNested (.dict out) L = getNested (.dict st'.1) L := by
              have : validateAux er et es args rest (st'.1, st'.2) = .ok (out, wsOut) := by
                rw [← h]
              exact validateAux_frame rest (st'.1, st'.2) L this
                (fun q hq => incomp_symm (hpair.1 q hq))
            constructor
            · intro v hv
              rw [hdec] at hv
              simp only [Except.ok.injEq] at hv
              subst hv
              cases hcase with
              | inl hno => exact absurd hno.1 (by simp)
              | inr hsome =>
                  obtain ⟨w, hw, hset⟩ := hsome
                  rw [Option.some.injEq] at hw
                  subst hw
                  rw [hframe]
                  exact getNested_setNestedGo_same L vd st'.1 _ hset
            · intro hnone
              rw [hdec] at hnone
              simp only [Except.ok.injEq] at hnone
              subst hnone
              cases hcase with
              | inl hno => rw [hframe, hno.2]
              | inr hsome => obtain ⟨w, hw, _⟩ := hsome; cases hw
          · -- our parameter sits in the tail
            have hres := ih st'.1 st'.2 (by rw [← h]) hpair.2 hmem'
            obtain ⟨⟨dec, hdec, hcase⟩, _⟩ :=
              @processParam_char er et es args vd st'.1 ws st'.2 lp.1 lp.2
                (by rw [← hp])
            refine ⟨hres.1, fun hnone => ?_⟩
            rw [hres.2 hnone]
            cases hcase with
            | inl hno => rw [hno.2]
            | inr hsome =>
                obtain ⟨v, _, hset⟩ := hsome
                have hq : incomp lp.1 L = true := hpair.1 (L, p) hmem'
                exact getNested_setNestedGo_incomp lp.1 L vd st'.1 v hset hq

theorem validateAux_append {er et es : Nat} {args : PyDict}
    (xs ys : List (List String × Param)) (st : PyDict × List Warn) :
    validateAux er et es args (xs ++ ys) st =
      match validateAux er et es args xs st with
      | .ok st' => validateAux er et es args ys st'
      | .error e => .error e := by
  induction xs generalizing st with
  | nil => simp [validateAux]
  | cons lp rest ih =>
      cases hp : processParam er et es args st lp with
      | error e => simp [validateAux, hp]
      | ok st' => simp [validateAux, hp, ih]

theorem validateAux_warns_mono {er et es : Nat} {args : PyDict}
    (ps : List (List String × Param)) (st : PyDict × List Warn)
    {out : PyDict} {wsOut : List Warn}
    (h : validateAux er et es args ps st = .ok (out, wsOut)) :
    ∃ t, wsOut = st.2 ++ t := by
  induction ps generalizing st with
  | nil =>
      simp only [validateAux, Except.ok.injEq] at h
      subst h
      exact ⟨[], by simp⟩
  | cons lp rest ih =>
      cases hp : processParam er et es args st lp with
      | error e => simp [validateAux, hp] at h
      | ok st' =>
          simp only [validateAux, hp] at h
          obtain ⟨t₂, ht₂⟩ := ih st' h
          obtain ⟨_, t₁, ht₁⟩ :=
            @processParam_char er et es args st.1 st'.1 st.2 st'.2 lp.1 lp.2
              (by rw [← hp])
          exact ⟨t₁ ++ t₂, by rw [ht₂, ht₁]; simp⟩

theorem mem_listParameters_ne_nil (m : CTDModel)
    (e : List String × Param) (he : e ∈ listParameters m) : e.1 ≠ [] := by
  unfold listParameters at he
  cases hm : m.parameters with
  | item p => rw [hm] at he; simp at he
  | group n d cs =>
      rw [hm] at he
      obtain ⟨c, _, he'⟩ := mem_leavesList cs e he
      obtain ⟨t, ht⟩ := mem_leavesOf_head c e he'
      rw [ht]
      simp

theorem getNested_nil_cons (k : String) (t : List String) :
    getNested (.dict ([] : PyDict)) (k :: t) = .error .keyError := by
  simp [getNested, dictGet]

theorem processParam_missing_required_warn {et es : Nat} {args : PyDict}
    (st : PyDict × List Warn) {L : List String} {p : Param}
    (hreq : p.required = true)
    (hmiss : getNested (.dict args) L = .error .keyError) :
    processParam 1 et es args st (L, p) =
      .ok (st.1, st.2 ++ [.missing (joinColon L)]) := by
  unfold processParam
  simp only [hmiss]
  rw [if_pos hreq, if_neg (by decide : ¬ (1 = 0))]
  simp

theorem processParam_missing_required_raise {et es : Nat} {args : PyDict}
    (st : PyDict × List Warn) {L : List String} {p : Param}
    (hreq : p.required = true)
    (hmiss : getNested (.dict args) L = .error .keyError) :
    processParam 2 et es args st (L, p) =
      .error (.argumentMissing (joinColon L)) := by
  unfold processParam
  simp only [hmiss]
  rw [if_pos hreq, if_neg (by decide : ¬ (2 = 0)), if_neg (by decide : ¬ (2 = 1))]

/-- C2.  For a required parameter absent from the input dictionary,
`validate_args` at `enforce_required = 0` returns (when it returns) an
output with no entry at the parameter's lineage; at level 1 it emits
the missing-argument warning and likewise stores no entry; at level 2
it raises `ArgumentMissingError` carrying the parameter's colon-joined
lineage, aborting the whole call (provided the parameters before it
were processed without error, since validation aborts at the first
error in schema order). -/
theorem c2_required_enforcement
    (m : CTDModel) (args : PyDict) (et es : Nat)
    (pre post : List (List String × Param)) (L : List String) (p : Param)
    (hwf : wfModel m = true)
    (hsplit : listParameters m = pre ++ (L, p) :: post)
    (hreq : p.required = true)
    (hmiss : getNested (.dict args) L = .error .keyError) :
    (∀ out ws, validateArgs m args 0 et es = .ok (out, ws) →
        getNested (.dict out) L = .error .keyError) ∧
    (∀ out ws, validateArgs m args 1 et es = .ok (out, ws) →
        getNested (.dict out) L = .error .keyError ∧
          Warn.missing (joinColon L) ∈ ws) ∧
    (∀ st', validateAux 2 et es args pre ([], []) = .ok st' →
        validateArgs m args 2 et es = .error (.argumentMissing (joinColon L))) := by
  have hpair := listParameters_pairwise m hwf
  have hmem : (L, p) ∈ listParameters m := by
    rw [hsplit]; exact List.mem_append_right pre (List.mem_cons_self _ _)
  have hLne : L ≠ [] := mem_listParameters_ne_nil m (L, p) hmem
  obtain ⟨k, t, hL⟩ : ∃ k t, L = k :: t := by
    cases L with
    | nil => exact absurd rfl hLne
    | cons a b => exact ⟨a, b, rfl⟩
  have hEmptyGet : getNested (.dict ([] : PyDict)) L = .error .keyError := by
    rw [hL]; exact getNested_nil_cons k t
  refine ⟨?_, ?_, ?_⟩
  · intro out ws h
    unfold validateArgs at h
    have hsv : storedValue 0 et es args L p = .ok Option.none := by
      unfold storedValue
      simp only [hmiss]
      rw [if_pos hreq]
      simp
    have hv := (validateAux_value (listParameters m) [] [] h hpair hmem).2 hsv
    rw [hv, hEmptyGet]
  · intro out ws h
    unfold validateArgs at h
    have hsv : storedValue 1 et es args L p = .ok Option.none := by
      unfold storedValue
      simp only [hmiss]
      rw [if_pos hreq, if_neg (by decide : ¬ (1 = 0))]
      simp
    have hv := (validateAux_value (listParameters m) [] [] h hpair hmem).2 hsv
    refine ⟨by rw [hv, hEmptyGet], ?_⟩
    rw [hsplit] at h
    rw [validateAux_append] at h
    cases hpre : validateAux 1 et es args pre ([], []) with
    | error e => rw [hpre] at h; simp at h
    | ok st1 =>
        rw [hpre] at h
        simp only at h
        simp only [validateAux,
          processParam_missing_required_warn st1 hreq hmiss] at h
        obtain ⟨t₂, ht₂⟩ := validateAux_warns_mono post _ h
        rw [ht₂]
        simp
  · intro st' hpre
    unfold validateArgs
    rw [hsplit, validateAux_append, hpre]
    simp only [validateAux,
      processParam_missing_required_raise st' hreq hmiss]

/-- A plain optional string parameter with no default, exactly as
`Parameter('p', parent, type='string')` constructs it. -/
def paramStrP : Param :=
  { name := "p", type := .string, tags := [], required := false,
    is_list := false, description := Option.none, advanced := false,
    default := Option.none, restrictions := Option.none }

/-- A required string parameter with no default. -/
def paramStrReq : Param :=
  { name := "r", type := .string, tags := [], required := true,
    is_list := false, description := Option.none, advanced := false,
    default := Option.none, restrictions := Option.none }

/-- One-parameter model around `paramStrReq`. -/
def modelReq : CTDModel :=
  { name := "exampleTool", version := "1.0", opt_attribs := [],
    parameters := .group "1" (some "Parameters of exampleTool")
      [.item paramStrReq] }

/-- Witness for C2 at a concrete model: one required string parameter
`r` and an empty argument dictionary. -/
theorem c2_required_enforcement_witness :
    (∀ out ws, validateArgs modelReq [] 0 0 0 = .ok (out, ws) →
        getNested (.dict out) ["r"] = .error .keyError) ∧
    (∀ out ws, validateArgs modelReq [] 1 0 0 = .ok (out, ws) →
        getNested (.dict out) ["r"] = .error .keyError ∧
          Warn.missing (joinColon ["r"]) ∈ ws) ∧
    (∀ st', validateAux 2 0 0 [] [] ([], []) = .ok st' →
        validateArgs modelReq [] 2 0 0 =
          .error (.argumentMissing (joinColon ["r"]))) :=
  c2_required_enforcement modelReq [] 0 0 [] [] ["r"] paramStrReq
    (by decide) rfl rfl rfl

/-- One-parameter model around `paramStrP`. -/
def modelOpt : CTDModel :=
  { name := "exampleTool", version := "1.0", opt_attribs := [],
    parameters := .group "1" (some "Parameters of exampleTool")
      [.item paramStrP] }

/-- Counterexample to C3 as stated: a non-required parameter with no
default does not disappear from the output — `validate_args` stores a
`None` placeholder at its lineage (the source runs
`set_nested_key(validated_args, lineage, param.default)` with
`param.default is None`).  The first conjunct ties the concrete
parameter record to `Parameter.__init__`. -/
theorem c3_counterexample :
    mkParameter "p" { type := some (.name "string") } = .ok paramStrP ∧
    validateArgs modelOpt [] 0 0 0 = .ok ([("p", PyVal.none)], []) ∧
    getNested (.dict [("p", PyVal.none)]) ["p"] = .ok PyVal.none := by
  exact ⟨rfl, rfl, rfl⟩

/-- C3 (amended).  For a non-required parameter absent from the input,
`validate_args` stores the parameter's default at its lineage; a
parameter with no default yields an entry holding `None` (not an
absent entry). -/
theorem c3_default_inserted
    (m : CTDModel) (args : PyDict) (er et es : Nat)
    (pre post : List (List String × Param)) (L : List String) (p : Param)
    (hwf : wfModel m = true)
    (hsplit : listParameters m = pre ++ (L, p) :: post)
    (hopt : p.required = false)
    (hmiss : getNested (.dict args) L = .error .keyError) :
    ∀ out ws, validateArgs m args er et es = .ok (out, ws) →
      getNested (.dict out) L = .ok (p.default.getD PyVal.none) := by
  intro out ws h
  have hpair := listParameters_pairwise m hwf
  have hmem : (L, p) ∈ listParameters m := by
    rw [hsplit]; exact List.mem_append_right pre (List.mem_cons_self _ _)
  unfold validateArgs at h
  have hsv : storedValue er et es args L p = .ok (some (p.default.getD .none)) := by
    unfold storedValue
    simp only [hmiss]
    rw [if_neg (by simp [hopt])]
  exact (validateAux_value (listParameters m) [] [] h hpair hmem).1 _ hsv

/-- Witness for C3 (amended) at the same concrete model. -/
theorem c3_default_inserted_witness :
    getNested (.dict [("p", PyVal.none)]) ["p"] =
      .ok (paramStrP.default.getD PyVal.none) :=
  c3_default_inserted modelOpt [] 0 0 0 [] [] ["p"] paramStrP
    (by decide) rfl rfl rfl [("p", PyVal.none)] [] rfl

/-- Body of `CTDModel.get_defaults`: inserts each parameter's default
at its lineage, skipping parameters whose default is absent. -/
def defaultsAux : List (List String × Param) → PyDict → Except PyErr PyDict
  | [], d => .ok d
  | (L, p) :: rest, d =>
      match p.default with
      | Option.none => defaultsAux rest d
      | some dv =>
          match setNestedGo d L dv with
          | .ok d' => defaultsAux rest d'
          | .error e => .error e

/-- `CTDModel.get_defaults`. -/
def getDefaults (m : CTDModel) : Except PyErr PyDict :=
  defaultsAux (listParameters m) []

/-- Steps of `get_defaults` for parameters with lineages incomparable
with `L` do not change what the result holds at `L`. -/
theorem defaultsAux_frame (ps : List (List String × Param)) (d : PyDict)
    {out : PyDict} (L : List String)
    (h : defaultsAux ps d = .ok out)
    (hinc : ∀ lp ∈ ps, incomp lp.1 L = true) :
    getNested (.dict out) L = getNested (.dict d) L := by
  induction ps generalizing d with
  | nil =>
      simp only [defaultsAux, Except.ok.injEq] at h
      subst h
      rfl
  | cons lp rest ih =>
      obtain ⟨lL, lp2⟩ := lp
      cases hdv : lp2.default with
      | none =>
          simp only [defaultsAux, hdv] at h
          exact ih d h (fun q hq => hinc q (List.mem_cons_of_mem _ hq))
      | some dv =>
          simp only [defaultsAux, hdv] at h
          cases hs : setNestedGo d lL dv with
          | error e => rw [hs] at h; simp at h
          | ok d' =>
              rw [hs] at h
              have := ih d' h (fun q hq => hinc q (List.mem_cons_of_mem _ hq))
              rw [this]
              exact getNested_setNestedGo_incomp lL L d d' dv hs
                (hinc (lL, lp2) (List.mem_cons_self _ _))

/-- A parameter with no stored default leaves `get_defaults`' reading
at its lineage unchanged (in a model with pairwise-incomparable
lineages, no other parameter can create an entry there). -/
theorem defaultsAux_none (ps : List (List String × Param)) (d : PyDict)
    {out : PyDict} (L : List String) (p : Param)
    (h : defaultsAux ps d = .ok out)
    (hpair : ps.Pairwise lineageIncomp)
    (hmem : (L, p) ∈ ps)
    (hnone : p.default = Option.none) :
    getNested (.dict out) L = getNested (.dict d) L := by
  induction ps generalizing d with
  | nil => simp at hmem
  | cons lp rest ih =>
      rw [List.pairwise_cons] at hpair
      rcases List.mem_cons.mp hmem with hEq | hmem'
      · subst hEq
        simp only [defaultsAux, hnone] at h
        exact defaultsAux_frame rest d L h
          (fun q hq => incomp_symm (hpair.1 q hq))
      · obtain ⟨lL, lp2⟩ := lp
        cases hdv : lp2.default with
        | none =>
            simp only [defaultsAux, hdv] at h
            exact ih d h hpair.2 hmem'
        | some dv =>
            simp only [defaultsAux, hdv] at h
            cases hs : setNestedGo d lL dv with
            | error e => rw [hs] at h; simp at h
            | ok d' =>
                rw [hs] at h
                rw [ih d' h hpair.2 hmem']
                exact getNested_setNestedGo_incomp lL L d d' dv hs
                  (hpair.1 (L, p) hmem')

/-- C5.  `CAST_BOOLEAN` maps exactly the string tokens `"true"`,
`"True"` and `"1"` to true, and every other string — `"false"`
included — to false. -/
theorem c5_cast_boolean (s : String) :
    (castBoolean (PyVal.str s) = .bool true ↔
      (s = "true" ∨ s = "True" ∨ s = "1")) ∧
    (castBoolean (PyVal.str s) = .bool false ↔
      ¬ (s = "true" ∨ s = "True" ∨ s = "1")) := by
  unfold castBoolean castBooleanB
  constructor
  · constructor
    · intro h
      simp only [PyVal.bool.injEq] at h
      exact of_decide_eq_true h
    · intro h
      simp [h]
  · constructor
    · intro h
      simp only [PyVal.bool.injEq] at h
      exact of_decide_eq_false h
    · intro h
      simp [h]

/-- Witness for C5: the string `"false"` coerces to boolean false, the
three true tokens to true. -/
theorem c5_cast_boolean_witness :
    castBoolean (PyVal.str "false") = .bool false ∧
    castBoolean (PyVal.str "true") = .bool true ∧
    castBoolean (PyVal.str "True") = .bool true ∧
    castBoolean (PyVal.str "1") = .bool true :=
  ⟨(c5_cast_boolean "false").2.mpr (by decide),
   (c5_cast_boolean "true").1.mpr (by decide),
   (c5_cast_boolean "True").1.mpr (by decide),
   (c5_cast_boolean "1").1.mpr (by decide)⟩

/-- Counterexample to C6 as stated: the claim asserts `"a.fastq.gz"`
does not pass a restriction whose sole format is the bare `gz`, but
`_single_check` tests `value.endswith('.' + f)` and `"a.fastq.gz"`
does end with `".gz"`, so the check accepts it. -/
theorem c6_counterexample :
    singleCheck (Restriction.fileFormat ["gz"]) (.str "a.fastq.gz") = .ok true ∧
    checkRestriction (Restriction.fileFormat ["gz"]) (.str "a.fastq.gz") =
      .ok true := by
  constructor <;> rfl

/-- C6 (amended).  The FileFormat check accepts a string filename iff
it ends with `'.'` followed by one of the registered extensions
(case-sensitively, compound extensions included); consequently
`"a.fastq.gz"` passes both a `fastq.gz`-only and a `gz`-only
restriction, while `"a.txt"` passes neither. -/
theorem c6_fileformat (formats : List String) (value : String) :
    (singleCheck (Restriction.fileFormat formats) (.str value) = .ok true ↔
      ∃ f ∈ formats, pyEndsWith value ("." ++ f) = true) ∧
    singleCheck (Restriction.fileFormat ["fastq.gz"]) (.str "a.fastq.gz") = .ok true ∧
    singleCheck (Restriction.fileFormat ["gz"]) (.str "a.fastq.gz") = .ok true ∧
    singleCheck (Restriction.fileFormat ["fastq.gz"]) (.str "a.txt") = .ok false ∧
    singleCheck (Restriction.fileFormat ["gz"]) (.str "a.txt") = .ok false := by
  refine ⟨?_, rfl, rfl, rfl, rfl⟩
  have hred : singleCheck (Restriction.fileFormat formats) (.str value) =
      .ok (formats.any (fun f => pyEndsWith value ("." ++ f))) := rfl
  rw [hred]
  simp [List.any_eq_true]

/-- Witness for C6 (amended), instantiating the iff at the compound
extension. -/
theorem c6_fileformat_witness :
    singleCheck (Restriction.fileFormat ["fastq", "fastq.gz"])
      (.str "x.fastq.gz") = .ok true :=
  (c6_fileformat ["fastq", "fastq.gz"] "x.fastq.gz").1.mpr
    ⟨"fastq.gz", by decide, by decide⟩

/-- For boolean parameters `_validate_numerical_defaults` accepts any
default (the numeric check only runs for `int`/`float`). -/
theorem validateNumericalDefaults_boolean (l : Bool) (d : Option PyVal) :
    validateNumericalDefaults .boolean l d = .ok () := by
  unfold validateNumericalDefaults
  cases d with
  | none => rfl
  | some d => simp

/-- Counterexample to C7 as stated: a boolean parameter requested with
`is_list=True` is not coerced to a non-list parameter — construction
fails on `assert self.is_list is False`, so no parameter with the
claimed attributes is constructed at all. -/
theorem c7_counterexample :
    mkParameter "b"
      { type := some (.py .boolean), is_list := some (.bool true),
        required := some (.bool true), default := some (.str "true") } =
      .error (.assertionError "Boolean flag cannot be a list type") := by
  rfl

/-- C7 (amended).  For a parameter whose type token resolves to
boolean: whenever construction succeeds the parameter is not required,
not a list, and has default `False`, regardless of the caller-supplied
`required` and `default` options; but a truthy `is_list` option makes
construction raise (an `AssertionError`) instead of being overridden. -/
theorem c7_boolean_overrides (name : String) (kw : ParamKwargs)
    (htype : ctdtypeToType (kw.type.getD (.py .string)) = some .boolean) :
    (∀ p, mkParameter name kw = .ok p →
        p.required = false ∧ p.is_list = false ∧
          p.default = some (PyVal.bool false)) ∧
    (castBooleanB ((kw.is_list).getD (.bool false)) = true →
        ∀ p, mkParameter name kw ≠ .ok p) := by
  constructor
  · intro p hok
    unfold mkParameter at hok
    simp only [htype, validateNumericalDefaults_boolean] at hok
    cases hlist : castBooleanB ((kw.is_list).getD (.bool false)) with
    | true =>
        rw [hlist] at hok
        cases hcd : castDefault .boolean true
            (match kw.default with
             | some d =>
                 if pyEq d (.str "") || (true && pyEq d (.list [])) then
                   Option.none
                 else some d
             | Option.none => Option.none) with
        | error e => rw [hcd] at hok; simp at hok
        | ok d2 => rw [hcd] at hok; simp at hok
    | false =>
        rw [hlist] at hok
        cases hcd : castDefault .boolean false
            (match kw.default with
             | some d =>
                 if pyEq d (.str "") || (false && pyEq d (.list [])) then
                   Option.none
                 else some d
             | Option.none => Option.none) with
        | error e => rw [hcd] at hok; simp at hok
        | ok d2 =>
            rw [hcd] at hok
            simp only [Bool.false_eq_true, and_false, if_false] at hok
            cases hr : mkRestrictions .boolean kw with
            | error e => rw [hr] at hok; simp at hok
            | ok restr =>
                rw [hr] at hok
                simp only [Except.ok.injEq] at hok
                subst hok
                simp
  · intro hlist p hok
    unfold mkParameter at hok
    simp only [htype, validateNumericalDefaults_boolean, hlist] at hok
    cases hcd : castDefault .boolean true
        (match kw.default with
         | some d =>
             if pyEq d (.str "") || (true && pyEq d (.list [])) then
               Option.none
             else some d
         | Option.none => Option.none) with
    | error e => rw [hcd] at hok; simp at hok
    | ok d2 => rw [hcd] at hok; simp at hok

/-- Witness for C7 (amended): with a falsy `is_list`, the boolean
overrides apply even against `required=True` and `default='true'`. -/
theorem c7_boolean_overrides_witness :
    ({ name := "b", type := .boolean, tags := [], required := false,
       is_list := false, description := Option.none, advanced := false,
       default := some (PyVal.bool false),
       restrictions := Option.none } : Param).required = false ∧
    ({ name := "b", type := .boolean, tags := [], required := false,
       is_list := false, description := Option.none, advanced := false,
       default := some (PyVal.bool false),
       restrictions := Option.none } : Param).is_list = false ∧
    ({ name := "b", type := .boolean, tags := [], required := false,
       is_list := false, description := Option.none, advanced := false,
       default := some (PyVal.bool false),
       restrictions := Option.none } : Param).default =
      some (PyVal.bool false) :=
  (c7_boolean_overrides "b"
    { type := some (.name "boolean"), required := some (.bool true),
      default := some (.str "true") } rfl).1
    { name := "b", type := .boolean, tags := [], required := false,
      is_list := false, description := Option.none, advanced := false,
      default := some (PyVal.bool false),
      restrictions := Option.none } rfl

/-- Counterexample to C10 as stated: a scalar `int` parameter
constructed with default `''` does not store `default = None` — the
numeric-default validation rejects the empty string with
`ModelParsingError` before the `'' → None` normalization runs, so no
parameter is constructed.  (For `bool`, the other non-string scalar
type, `''` normalizes to `None` but the boolean override then stores
`False`, also contradicting the claim.) -/
theorem c10_counterexample :
    mkParameter "n" { type := some (.name "int"), default := some (.str "") } =
      .error (.modelParsing "invalid numeric default") ∧
    (∀ p, mkParameter "b"
        { type := some (.name "boolean"), default := some (.str "") } = .ok p →
      p.default = some (PyVal.bool false)) := by
  constructor
  · rfl
  · intro p hok
    have : mkParameter "b"
        { type := some (.name "boolean"), default := some (.str "") } =
      .ok { name := "b", type := .boolean, tags := [], required := false,
            is_list := false, description := Option.none, advanced := false,
            default := some (PyVal.bool false),
            restrictions := Option.none } := rfl
    rw [this] at hok
    simp only [Except.ok.injEq] at hok
    subst hok
    rfl

/-- C10 (amended).  The empty-default normalization holds for the
string-kind scalar types (`string`, `input-file`, `output-file`): a
default of `''` is stored as no default.  Numeric scalar types reject
`''` with `ModelParsingError` instead, and booleans force default
`False`.  A non-boolean list parameter with default `[]` stores no
default.  A parameter whose stored default is absent contributes no
entry to `get_defaults()`. -/
theorem c10_empty_default (name : String) :
    (∀ t, (t = PType.string ∨ t = PType.inFile ∨ t = PType.outFile) →
      ∃ p, mkParameter name { type := some (.py t), default := some (.str "") } =
          .ok p ∧ p.default = Option.none) ∧
    (mkParameter name { type := some (.py .int), default := some (.str "") } =
        .error (.modelParsing "invalid numeric default") ∧
     mkParameter name { type := some (.py .float), default := some (.str "") } =
        .error (.modelParsing "invalid numeric default")) ∧
    (∀ t, t ≠ PType.boolean →
      ∃ p, mkParameter name
          { type := some (.py t), is_list := some (.bool true),
            default := some (.list []) } = .ok p ∧ p.default = Option.none) ∧
    (∀ (m : CTDModel) (L : List String) (p : Param) (dd : PyDict),
      wfModel m = true → (L, p) ∈ listParameters m →
      p.default = Option.none → getDefaults m = .ok dd →
      getNested (.dict dd) L = .error .keyError) := by
  refine ⟨?_, ⟨rfl, rfl⟩, ?_, ?_⟩
  · intro t ht
    rcases ht with h | h | h <;> subst h <;> exact ⟨_, rfl, rfl⟩
  · intro t ht
    cases t with
    | boolean => exact absurd rfl ht
    | int => exact ⟨_, rfl, rfl⟩
    | float => exact ⟨_, rfl, rfl⟩
    | string => exact ⟨_, rfl, rfl⟩
    | inFile => exact ⟨_, rfl, rfl⟩
    | outFile => exact ⟨_, rfl, rfl⟩
  · intro m L p dd hwf hmem hnone hdd
    have hpair := listParameters_pairwise m hwf
    have hLne := mem_listParameters_ne_nil m (L, p) hmem
    obtain ⟨k, t, hL⟩ : ∃ k t, L = k :: t := by
      cases L with
      | nil => exact absurd rfl hLne
      | cons a b => exact ⟨a, b, rfl⟩
    unfold getDefaults at hdd
    rw [defaultsAux_none (listParameters m) [] L p hdd hpair hmem hnone, hL]
    exact getNested_nil_cons k t

/-! Idempotence of validation (C4): the coercions are idempotent and a
successful run's decisions replay unchanged on its own output. -/

theorem pyCast_int_shape (x v : PyVal) (h : pyCast .int x = .ok v) :
    ∃ n, v = .int n := by
  cases x with
  | int n => exact ⟨n, by simpa [pyCast] using h.symm⟩
  | bool b => exact ⟨_, by simpa [pyCast] using h.symm⟩
  | float q => exact ⟨_, by simpa [pyCast] using h.symm⟩
  | str s =>
      simp only [pyCast] at h
      cases hp : pyParseInt s with
      | none => rw [hp] at h; simp at h
      | some n =>
          rw [hp] at h
          simp only [Except.ok.injEq] at h
          exact ⟨n, h.symm⟩
  | none => simp [pyCast] at h
  | list xs => simp [pyCast] at h
  | dict d => simp [pyCast] at h

theorem pyCast_float_shape (x v : PyVal) (h : pyCast .float x = .ok v) :
    ∃ q, v = .float q := by
  cases x with
  | int n => exact ⟨_, by simpa [pyCast] using h.symm⟩
  | bool b => exact ⟨_, by simpa [pyCast] using h.symm⟩
  | float q => exact ⟨q, by simpa [pyCast] using h.symm⟩
  | str s =>
      simp only [pyCast] at h
      cases hp : pyParseFloat s with
      | none => rw [hp] at h; simp at h
      | some q =>
          rw [hp] at h
          simp only [Except.ok.injEq] at h
          exact ⟨q, h.symm⟩
  | none => simp [pyCast] at h
  | list xs => simp [pyCast] at h
  | dict d => simp [pyCast] at h

/-- The scalar coercion of `validate_args` is idempotent: coercing a
coerced value succeeds and is the identity. -/
theorem validateCast_idem (t : PType) (x v : PyVal)
    (h : validateCast t x = .ok v) : validateCast t v = .ok v := by
  cases t with
  | boolean =>
      simp only [validateCast] at h ⊢
      rw [if_pos trivial] at h ⊢
      simp only [Except.ok.injEq] at h
      subst h
      rfl
  | int =>
      simp only [validateCast, if_neg (by decide : ¬ (PType.int = .boolean))] at h ⊢
      obtain ⟨n, rfl⟩ := pyCast_int_shape x v h
      rfl
  | float =>
      simp only [validateCast,
        if_neg (by decide : ¬ (PType.float = .boolean))] at h ⊢
      obtain ⟨q, rfl⟩ := pyCast_float_shape x v h
      rfl
  | string =>
      simp only [validateCast,
        if_neg (by decide : ¬ (PType.string = .boolean))] at h ⊢
      simp only [pyCast, Except.ok.injEq] at h
      subst h
      rfl
  | inFile =>
      simp only [validateCast,
        if_neg (by decide : ¬ (PType.inFile = .boolean))] at h ⊢
      simp only [pyCast, Except.ok.injEq] at h
      subst h
      rfl
  | outFile =>
      simp only [validateCast,
        if_neg (by decide : ¬ (PType.outFile = .boolean))] at h ⊢
      simp only [pyCast, Except.ok.injEq] at h
      subst h
      rfl

theorem exMapM_image (f : PyVal → Except PyErr PyVal)
    (xs ys : List PyVal) (h : exMapM f xs = .ok ys) :
    ∀ y ∈ ys, ∃ x, f x = .ok y := by
  induction xs generalizing ys with
  | nil =>
      simp only [exMapM, Except.ok.injEq] at h
      subst h
      simp
  | cons x rest ih =>
      unfold exMapM at h
      cases hf : f x with
      | error e => rw [hf] at h; simp at h
      | ok y0 =>
          rw [hf] at h
          cases hr : exMapM f rest with
          | error e => rw [hr] at h; simp at h
          | ok ys0 =>
              rw [hr] at h
              simp only [Except.ok.injEq] at h
              subst h
              intro y hy
              rcases List.mem_cons.mp hy with rfl | hy'
              · exact ⟨x, hf⟩
              · exact ih ys0 hr y hy'

theorem exMapM_fixed (f : PyVal → Except PyErr PyVal) (ys : List PyVal)
    (h : ∀ y ∈ ys, f y = .ok y) : exMapM f ys = .ok ys := by
  induction ys with
  | nil => rfl
  | cons y rest ih =>
      unfold exMapM
      rw [h y (List.mem_cons_self _ _), ih (fun z hz => h z (List.mem_cons_of_mem _ hz))]

/-- The full (scalar or elementwise) coercion is idempotent. -/
theorem vCast_idem (p : Param) (arg v : PyVal) (h : vCast p arg = .ok v) :
    vCast p v = .ok v := by
  unfold vCast at h ⊢
  cases hl : p.is_list with
  | false =>
      rw [hl] at h
      simp only [Bool.false_eq_true, if_false] at h ⊢
      exact validateCast_idem p.type arg v h
  | true =>
      rw [hl] at h
      simp only [if_pos rfl] at h ⊢
      rw [if_pos trivial] at h
      rw [if_pos trivial]
      unfold pyMapM at h ⊢
      cases hi : pyIter arg with
      | error e => rw [hi] at h; simp at h
      | ok xs =>
          rw [hi] at h
          simp only at h
          cases hm : exMapM (validateCast p.type) xs with
          | error e => rw [hm] at h; simp at h
          | ok ys =>
              rw [hm] at h
              simp only [Except.ok.injEq] at h
              subst h
              have hys : ∀ y ∈ ys, validateCast p.type y = .ok y := by
                intro y hy
                obtain ⟨x, hx⟩ := exMapM_image _ xs ys hm y hy
                exact validateCast_idem p.type x y hx
              simp only [pyIter]
              rw [exMapM_fixed _ ys hys]

/-- Inversion of a stored decision: where the value at a parameter's
lineage in the validated output came from. -/
theorem storedValue_some_inv {er et es : Nat} {args : PyDict}
    {L : List String} {p : Param} {v : PyVal}
    (hd : storedValue er et es args L p = .ok (some v)) :
    (getNested (.dict args) L = .error .keyError ∧ p.required = false ∧
      v = p.default.getD .none) ∨
    (∃ arg, getNested (.dict args) L = .ok arg ∧ vCast p arg = .ok v ∧
      ∃ b, restrOutcome es L p v = .ok b) ∨
    (∃ arg, getNested (.dict args) L = .ok arg ∧
      vCast p arg = .error .valueError ∧ v = arg ∧
      ∃ b, restrOutcome es L p v = .ok b) := by
  unfold storedValue at hd
  cases hg : getNested (.dict args) L with
  | error e =>
      cases e with
      | keyError =>
          simp only [hg] at hd
          by_cases hreq : p.required = true
          · rw [if_pos hreq] at hd
            by_cases h0 : er = 0
            · rw [if_pos h0] at hd; simp at hd
            · rw [if_neg h0] at hd
              by_cases h1 : er = 1
              · rw [if_pos h1] at hd; simp at hd
              · rw [if_neg h1] at hd; simp at hd
          · rw [if_neg hreq] at hd
            simp only [Except.ok.injEq, Option.some.injEq] at hd
            exact Or.inl ⟨rfl, by simpa using hreq, hd.symm⟩
      | valueError => simp only [hg] at hd; simp at hd
      | typeError => simp only [hg] at hd; simp at hd
      | indexError => simp only [hg] at hd; simp at hd
      | attributeError => simp only [hg] at hd; simp at hd
  | ok arg =>
      simp only [hg] at hd
      cases hc : vCast p arg with
      | ok w =>
          simp only [hc] at hd
          cases hr : restrOutcome es L p w with
          | ok b =>
              rw [hr] at hd
              simp only [Except.ok.injEq, Option.some.injEq] at hd
              subst hd
              exact Or.inr (Or.inl ⟨arg, rfl, hc, b, hr⟩)
          | error e => rw [hr] at hd; simp at hd
      | error e =>
          simp only [hc] at hd
          cases e with
          | valueError =>
              simp only at hd
              by_cases h0 : et = 0
              · rw [if_pos h0] at hd
                cases hr : restrOutcome es L p arg with
                | ok b =>
                    rw [hr] at hd
                    simp only [Except.ok.injEq, Option.some.injEq] at hd
                    subst hd
                    exact Or.inr (Or.inr ⟨arg, rfl, hc, rfl, b, hr⟩)
                | error e => rw [hr] at hd; simp at hd
              · rw [if_neg h0] at hd
                by_cases h1 : et = 1
                · rw [if_pos h1] at hd
                  cases hr : restrOutcome es L p arg with
                  | ok b =>
                      rw [hr] at hd
                      simp only [Except.ok.injEq, Option.some.injEq] at hd
                      subst hd
                      exact Or.inr (Or.inr ⟨arg, rfl, hc, rfl, b, hr⟩)
                  | error e => rw [hr] at hd; simp at hd
                · rw [if_neg h1] at hd; simp at hd
          | keyError => simp at hd
          | typeError => simp at hd
          | indexError => simp at hd
          | attributeError => simp at hd

/-- A successful validation run made a successful decision for every
parameter. -/
theorem validateAux_decisions {er et es : Nat} {args : PyDict}
    (ps : List (List String × Param)) (st : PyDict × List Warn)
    {out : PyDict} {wsOut : List Warn}
    (h : validateAux er et es args ps st = .ok (out, wsOut)) :
    ∀ lp ∈ ps, ∃ dec, storedValue er et es args lp.1 lp.2 = .ok dec := by
  induction ps generalizing st with
  | nil => simp
  | cons lp rest ih =>
      cases hp : processParam er et es args st lp with
      | error e => simp [validateAux, hp] at h
      | ok st' =>
          simp only [validateAux, hp] at h
          intro q hq
          rcases List.mem_cons.mp hq with rfl | hq'
          · obtain ⟨⟨dec, hdec, _⟩, _⟩ :=
              @processParam_char er et es args st.1 st'.1 st.2 st'.2 q.1 q.2
                (by rw [← hp])
            exact ⟨dec, hdec⟩
          · exact ih st' h q hq'

/-- Decision stability: on a model parameter whose stored default (if
any) is coercion-stable and restriction-compatible, the decision taken
against the validated output equals the decision taken against the
original arguments. -/
theorem storedValue_stable {er et es : Nat} {args out : PyDict}
    {L : List String} {p : Param}
    (hes : es ≤ 2)
    (hout_some : ∀ v, storedValue er et es args L p = .ok (some v) →
        getNested (.dict out) L = .ok v)
    (hout_none : storedValue er et es args L p = .ok Option.none →
        getNested (.dict out) L = .error .keyError)
    (hdef : p.required = false → p.default ≠ Option.none)
    (hstable : ∀ d, p.default = some d → vCast p d = .ok d)
    (hrestr : ∀ d, p.default = some d → ∀ r, p.restrictions = some r →
        es ≠ 0 → ∃ b, checkRestriction r d = .ok b ∧ (es = 2 → b = true))
    (hdec : ∃ dec, storedValue er et es args L p = .ok dec) :
    storedValue er et es out L p = storedValue er et es args L p := by
  obtain ⟨dec, hd⟩ := hdec
  cases dec with
  | none =>
      obtain ⟨hg, hreq, her⟩ := storedValue_none_inv hd
      have hgo := hout_none hd
      rw [hd]
      unfold storedValue
      simp only [hgo]
      rw [if_pos hreq]
      cases her with
      | inl h0 => rw [if_pos h0]
      | inr h1 =>
          by_cases h0 : er = 0
          · rw [if_pos h0]
          · rw [if_neg h0, if_pos h1]
  | some v =>
      have hgo := hout_some v hd
      rw [hd]
      rcases storedValue_some_inv hd with hdefc | hcast | hkeep
      · -- the value was an inserted default: cast-stable by hypothesis
        obtain ⟨hg, hreq, hv⟩ := hdefc
        obtain ⟨d, hdd⟩ : ∃ d, p.default = some d := by
          cases hdp : p.default with
          | none => exact absurd hdp (hdef hreq)
          | some d => exact ⟨d, rfl⟩
        have hvd : v = d := by rw [hv, hdd]; rfl
        subst hvd
        have hvc : vCast p v = .ok v := hstable v hdd
        have hro : ∃ b, restrOutcome es L p v = .ok b := by
          by_cases hes0 : es = 0
          · refine ⟨true, ?_⟩
            unfold restrOutcome
            rw [if_neg (by simp [hes0])]
          · cases hrp : p.restrictions with
            | none =>
                refine ⟨true, ?_⟩
                unfold restrOutcome
                rw [if_pos hes0, hrp]
            | some r =>
                obtain ⟨b, hcb, h2b⟩ := hrestr v hdd r hrp hes0
                unfold restrOutcome
                rw [if_pos hes0]
                simp only [hrp, hcb]
                cases b with
                | true => exact ⟨true, rfl⟩
                | false =>
                    by_cases hes1 : es = 1
                    · rw [if_pos hes1]; exact ⟨false, rfl⟩
                    · have h2 : es = 2 := by omega
                      exact absurd (h2b h2) (by simp)
        obtain ⟨b', hb'⟩ := hro
        unfold storedValue
        simp only [hgo, hvc, hb']
      · -- the value was a successful coercion: recoercion is identity
        obtain ⟨arg, hg, hc, b, hr⟩ := hcast
        have hvc : vCast p v = .ok v := vCast_idem p arg v hc
        unfold storedValue
        simp only [hgo, hvc, hr]
      · -- the raw value was kept after a failed coercion: it fails the
        -- same way again and is kept again at the same level
        obtain ⟨arg, hg, hc, hv, b, hr⟩ := hkeep
        subst hv
        have het : et = 0 ∨ et = 1 := by
          by_cases h0 : et = 0
          · exact Or.inl h0
          · by_cases h1 : et = 1
            · exact Or.inr h1
            · exfalso
              unfold storedValue at hd
              simp only [hg, hc] at hd
              rw [if_neg h0, if_neg h1] at hd
              simp at hd
        unfold storedValue
        simp only [hgo, hc]
        cases het with
        | inl h0 => rw [if_pos h0, hr]
        | inr h1 =>
            by_cases h0 : et = 0
            · rw [if_pos h0, hr]
            · rw [if_neg h0, if_pos h1, hr]

/-- Replaying a successful run against any argument dictionary that
induces the same decisions produces the same output dictionary. -/
theorem validateAux_replay {er et es : Nat} {args args2 : PyDict}
    (ps : List (List String × Param)) (vd : PyDict) (ws ws₀ : List Warn)
    {out : PyDict} {wsOut : List Warn}
    (h1 : validateAux er et es args ps (vd, ws) = .ok (out, wsOut))
    (hstable : ∀ lp ∈ ps, storedValue er et es args2 lp.1 lp.2 =
        storedValue er et es args lp.1 lp.2) :
    ∃ ws', validateAux er et es args2 ps (vd, ws₀) = .ok (out, ws') := by
  induction ps generalizing vd ws ws₀ with
  | nil =>
      simp only [validateAux, Except.ok.injEq, Prod.mk.injEq] at h1
      exact ⟨ws₀, by simp [validateAux, h1.1]⟩
  | cons lp rest ih =>
      obtain ⟨L, p⟩ := lp
      cases hp : processParam er et es args (vd, ws) (L, p) with
      | error e => simp [validateAux, hp] at h1
      | ok st' =>
          simp only [validateAux, hp] at h1
          obtain ⟨⟨dec, hdec, hcase⟩, _⟩ := processParam_char hp
          have hdec2 : storedValue er et es args2 L p = .ok dec := by
            rw [hstable (L, p) (List.mem_cons_self _ _), hdec]
          have hrest : ∀ q ∈ rest, storedValue er et es args2 q.1 q.2 =
              storedValue er et es args q.1 q.2 :=
            fun q hq => hstable q (List.mem_cons_of_mem _ hq)
          cases hcase with
          | inl hno =>
              obtain ⟨hdn, hvd⟩ := hno
              subst hdn
              obtain ⟨w', hstep2⟩ :=
                processParam_of_decision_none vd ws₀ hdec2
              have h1' : validateAux er et es args rest (vd, st'.2) =
                  .ok (out, wsOut) := by
                rw [← hvd]
                exact h1
              obtain ⟨ws'', hrun⟩ := ih vd st'.2 w' h1' hrest
              exact ⟨ws'', by simp [validateAux, hstep2, hrun]⟩
          | inr hsome =>
              obtain ⟨v, hdv, hset⟩ := hsome
              subst hdv
              obtain ⟨w', hstep2⟩ :=
                processParam_of_decision_some ws₀ hdec2 hset
              have h1' : validateAux er et es args rest (st'.1, st'.2) =
                  .ok (out, wsOut) := h1
              obtain ⟨ws'', hrun⟩ := ih st'.1 st'.2 w' h1' hrest
              exact ⟨ws'', by simp [validateAux, hstep2, hrun]⟩

/-- Counterexample to C4 as stated: validation is not idempotent.  For
a model with one optional string parameter without default, the first
run stores `None` at its lineage; the second run finds that `None`,
coerces it with `str()` and stores the string `'None'`, a different
dictionary. -/
theorem c4_counterexample :
    validateArgs modelOpt [] 0 0 0 = .ok ([("p", PyVal.none)], []) ∧
    validateArgs modelOpt [("p", PyVal.none)] 0 0 0 =
      .ok ([("p", PyVal.str "None")], []) ∧
    ¬ ([("p", PyVal.none)] : PyDict) = [("p", PyVal.str "None")] := by
  refine ⟨rfl, rfl, ?_⟩
  intro h
  simp only [List.cons.injEq, Prod.mk.injEq] at h
  exact PyVal.noConfusion h.1.2

/-- C4 (amended).  Feeding the output of a successful `validate_args`
call back through `validate_args` reproduces the same dictionary,
provided every non-required parameter carries a default (otherwise the
first run stores `None`, which the second run re-coerces), each stored
default is coercion-stable (as `Parameter.__init__`'s casting
guarantees), and — when restriction enforcement is on — each stored
default is checkable and, at level 2, passes its restriction
(the first run inserts defaults without checking restrictions, the
second run checks them). -/
theorem c4_idempotent
    (m : CTDModel) (args : PyDict) (er et es : Nat)
    (hwf : wfModel m = true) (hes : es ≤ 2)
    (hdef : ∀ lp ∈ listParameters m, lp.2.required = false →
        lp.2.default ≠ Option.none)
    (hstable : ∀ lp ∈ listParameters m, ∀ d, lp.2.default = some d →
        vCast lp.2 d = .ok d)
    (hrestr : ∀ lp ∈ listParameters m, ∀ d, lp.2.default = some d →
        ∀ r, lp.2.restrictions = some r → es ≠ 0 →
        ∃ b, checkRestriction r d = .ok b ∧ (es = 2 → b = true)) :
    ∀ out ws, validateArgs m args er et es = .ok (out, ws) →
      ∃ ws', validateArgs m out er et es = .ok (out, ws') := by
  intro out ws h
  have hpair := listParameters_pairwise m hwf
  unfold validateArgs at h ⊢
  have hstab : ∀ lp ∈ listParameters m,
      storedValue er et es out lp.1 lp.2 =
        storedValue er et es args lp.1 lp.2 := by
    intro lp hmem
    obtain ⟨L, p⟩ := lp
    have hLne := mem_listParameters_ne_nil m (L, p) hmem
    obtain ⟨k, t, hL⟩ : ∃ k t, L = k :: t := by
      cases L with
      | nil => exact absurd rfl hLne
      | cons a b => exact ⟨a, b, rfl⟩
    have hv := validateAux_value (listParameters m) [] [] h hpair hmem
    refine storedValue_stable hes hv.1 ?_ (hdef (L, p) hmem)
      (hstable (L, p) hmem)
      (fun d hd r hr hes0 => hrestr (L, p) hmem d hd r hr hes0)
      (validateAux_decisions (listParameters m) ([], []) h (L, p) hmem)
    intro hnone
    rw [hv.2 hnone, hL]
    exact getNested_nil_cons k t
  exact validateAux_replay (listParameters m) [] [] [] h hstab

/-- Witness for C4 (amended): the one-required-parameter model with a
supplied string value validates to itself on the second run. -/
theorem c4_idempotent_witness :
    ∃ ws', validateArgs modelReq [("r", PyVal.str "x")] 0 0 0 =
        .ok ([("r", PyVal.str "x")], ws') :=
  c4_idempotent modelReq [("r", PyVal.str "x")] 0 0 0 (by decide) (by decide)
    (fun lp hmem hreq => by
      simp only [listParameters, modelReq, leavesList, leavesOf,
        List.append_nil, List.map_cons, List.map_nil,
        List.mem_singleton] at hmem
      subst hmem
      simp [paramStrReq] at hreq)
    (fun lp hmem d hd => by
      simp only [listParameters, modelReq, leavesList, leavesOf,
        List.append_nil, List.map_cons, List.map_nil,
        List.mem_singleton] at hmem
      subst hmem
      simp [paramStrReq] at hd)
    (fun lp hmem d hd => by
      simp only [listParameters, modelReq, leavesList, leavesOf,
        List.append_nil, List.map_cons, List.map_nil,
        List.mem_singleton] at hmem
      subst hmem
      simp [paramStrReq] at hd)
    [("r", PyVal.str "x")] [] rfl

/-! Command-line parsing (`CTDModel.parse_cl_args`).  The `argparse`
standard-library calls the source makes are modelled from argparse's
documented behavior for exactly the option shapes registered here:
exact-match long options, `store_true` presence flags (default
`False`), plain options taking the single following token (default
`None`), and `nargs='*'` options taking the following run of
non-option tokens (default `None`).  Only the relative order of the
output dictionary's insertions differs from CPython's arbitrary
`vars()` dictionary order, which no lookup observes. -/

/-- What `add_argument` registers for a parameter: booleans are
presence flags, list parameters variadic, everything else a plain
string option. -/
inductive ArgKind where
  | storeTrue
  | single
  | multi
deriving DecidableEq, Repr

/-- `parse_cl_args`' registration of one parameter.  A boolean list
parameter would pass both `action='store_true'` and `nargs='*'` to
`add_argument`, which raises `TypeError`. -/
def clArgSpec (p : Param) : Except PyErr ArgKind :=
  if p.type = .boolean then
    if p.is_list then .error .typeError else .ok .storeTrue
  else if p.is_list then .ok .multi else .ok .single

/-- `xs` begins with the characters of the first list. -/
def listLeads : List Char → List Char → Bool
  | [], _ => true
  | _ :: _, [] => false
  | a :: xs, b :: ys => a == b && listLeads xs ys

/-- The token starts with the option prefix (is flag-like). -/
def strLeads (pfx s : String) : Bool := listLeads pfx.data s.data

/-- Index of the last occurrence of `flag` (argparse lets later
occurrences of an option override earlier ones). -/
def lastOcc (tokens : List String) (flag : String) : Option Nat :=
  match tokens with
  | [] => Option.none
  | t :: ts =>
      match lastOcc ts flag with
      | some i => some (i + 1)
      | Option.none => if t = flag then some 0 else Option.none

/-- Value argparse assigns to one registered option: `store_true`
flags are present-or-`False`; absent options are `None` (skipped by
`parse_cl_args`); a plain option takes the following token and a
variadic one the following run of non-option tokens, erring when a
required value is missing. -/
def parseOneArg (pfx : String) (tokens : List String) (kind : ArgKind)
    (flag : String) : Except PyErr (Option PyVal) :=
  match kind with
  | .storeTrue => .ok (some (.bool (tokens.contains flag)))
  | .single =>
      match lastOcc tokens flag with
      | Option.none => .ok Option.none
      | some i =>
          match tokens.get? (i + 1) with
          | some v =>
              if strLeads pfx v then .error .valueError
              else .ok (some (.str v))
          | Option.none => .error .valueError
  | .multi =>
      match lastOcc tokens flag with
      | Option.none => .ok Option.none
      | some i =>
          .ok (some (.list (((tokens.drop (i + 1)).takeWhile
            (fun tok => !(strLeads pfx tok))).map (fun s => .str s))))

/-- The value `parse_cl_args` obtains for one parameter. -/
def clValue (pfx : String) (tokens : List String) (lin : List String)
    (p : Param) : Except PyErr (Option PyVal) :=
  match clArgSpec p with
  | .error e => .error e
  | .ok kind => parseOneArg pfx tokens kind (pfx ++ joinColon lin)

/-- Body of `parse_cl_args`: skip `None` values, store the rest at
`param_name.split(':')`. -/
def parseClAux (pfx : String) (tokens : List String) :
    List (List String × Param) → PyDict → Except PyErr PyDict
  | [], res => .ok res
  | lp :: rest, res =>
      match clValue pfx tokens lp.1 lp.2 with
      | .error e => .error e
      | .ok Option.none => parseClAux pfx tokens rest res
      | .ok (some v) =>
          match setNestedGo res (splitChar ':' (joinColon lp.1)) v with
          | .ok res2 => parseClAux pfx tokens rest res2
          | .error e => .error e

/-- `CTDModel.parse_cl_args` (without `get_remaining`). -/
def parseClArgs (m : CTDModel) (tokens : List String) (pfx : String) :
    Except PyErr PyDict :=
  parseClAux pfx tokens (listParameters m) []

theorem lastOcc_of_not_mem (tokens : List String) (flag : String)
    (h : flag ∉ tokens) : lastOcc tokens flag = Option.none := by
  induction tokens with
  | nil => rfl
  | cons t ts ih =>
      unfold lastOcc
      rw [ih (fun hmem => h (List.mem_cons_of_mem t hmem))]
      rw [if_neg (fun hEq => h (by rw [← hEq]; exact List.mem_cons_self t ts))]

theorem contains_eq_false_of_not_mem (tokens : List String) (flag : String)
    (h : flag ∉ tokens) : tokens.contains flag = false := by
  induction tokens with
  | nil => rfl
  | cons t ts ih =>
      simp only [List.contains_cons, Bool.or_eq_false_iff]
      constructor
      · exact beq_eq_false_iff_ne.mpr
          (fun hEq => h (hEq ▸ List.mem_cons_self t ts))
      · exact ih (fun hmem => h (List.mem_cons_of_mem t hmem))

/-- A name usable as a command-line flag component: nonempty and free
of the ':' separator that `parse_cl_args` joins lineages with and
re-splits stored names on. -/
def clName (s : String) : Bool :=
  !s.data.isEmpty && s.data.all (fun c => !(c = ':'))

/-- Every component of the lineage is a usable flag component. -/
def clNamesOK (L : List String) : Bool := L.all clName

theorem data_append (a b : String) : (a ++ b).data = a.data ++ b.data := by
  cases a
  cases b
  rfl

theorem splitCharAux_no_sep (sep : Char) (cs rest acc : List Char)
    (h : ∀ c ∈ cs, c ≠ sep) :
    splitCharAux sep (cs ++ rest) acc
      = splitCharAux sep rest (cs.reverse ++ acc) := by
  induction cs generalizing acc with
  | nil => simp
  | cons c cs ih =>
      simp only [List.cons_append, splitCharAux]
      rw [if_neg (h c (List.mem_cons_self c cs))]
      show splitCharAux sep (cs ++ rest) (c :: acc) = _
      rw [ih (c :: acc) (fun x hx => h x (List.mem_cons_of_mem c hx))]
      simp

theorem clName_chars (s : String) (h : clName s = true) :
    ∀ c ∈ s.data, c ≠ ':' := by
  intro c hc
  simp only [clName, Bool.and_eq_true, List.all_eq_true] at h
  have hcc := h.2 c hc
  simpa using hcc

/-- Splitting the colon-joined lineage back on ':' recovers the
lineage, provided the component names are nonempty and colon-free. -/
theorem splitChar_joinColon (L : List String) (hne : L ≠ [])
    (h : clNamesOK L = true) : splitChar ':' (joinColon L) = L := by
  induction L with
  | nil => exact absurd rfl hne
  | cons s rest ih =>
      have hs : ∀ c ∈ s.data, c ≠ ':' := by
        apply clName_chars
        simp only [clNamesOK, List.all_eq_true] at h
        exact h s (List.mem_cons_self s rest)
      cases rest with
      | nil =>
          show splitCharAux ':' (joinColon [s]).data [] = [s]
          have hrw := splitCharAux_no_sep ':' s.data [] [] hs
          simp only [List.append_nil] at hrw
          show splitCharAux ':' s.data [] = [s]
          rw [hrw]
          simp only [splitCharAux, List.append_nil, List.reverse_reverse]
      | cons r rest2 =>
          have hdata : (joinColon (s :: r :: rest2)).data
              = s.data ++ ':' :: (joinColon (r :: rest2)).data := by
            show (s ++ ":" ++ joinColon (r :: rest2)).data = _
            rw [data_append, data_append]
            simp
          show splitCharAux ':' (joinColon (s :: r :: rest2)).data [] = _
          rw [hdata]
          rw [splitCharAux_no_sep ':' s.data
            (':' :: (joinColon (r :: rest2)).data) [] hs]
          simp only [splitCharAux, if_pos, List.append_nil, List.reverse_reverse]
          have hrest : splitCharAux ':' (joinColon (r :: rest2)).data [] =
              r :: rest2 := by
            apply ih
            · simp
            · simp only [clNamesOK, List.all_eq_true] at h ⊢
              exact fun x hx => h x (List.mem_cons_of_mem s hx)
          rw [hrest]

/-- `parse_cl_args` steps for parameters whose lineages are
incomparable with `L` leave the output's reading at `L` unchanged. -/
theorem parseClAux_frame (pfx : String) (tokens : List String)
    (ps : List (List String × Param)) (res : PyDict)
    {out : PyDict} (L : List String)
    (h : parseClAux pfx tokens ps res = .ok out)
    (hinc : ∀ lp ∈ ps, incomp lp.1 L = true)
    (hok : ∀ lp ∈ ps, lp.1 ≠ [] ∧ clNamesOK lp.1 = true) :
    getNested (.dict out) L = getNested (.dict res) L := by
  induction ps generalizing res with
  | nil =>
      simp only [parseClAux, Except.ok.injEq] at h
      subst h
      rfl
  | cons lp rest ih =>
      cases hv : clValue pfx tokens lp.1 lp.2 with
      | error e => simp [parseClAux, hv] at h
      | ok ov =>
          cases ov with
          | none =>
              simp only [parseClAux, hv] at h
              exact ih res h (fun q hq => hinc q (List.mem_cons_of_mem lp hq))
                (fun q hq => hok q (List.mem_cons_of_mem lp hq))
          | some v =>
              simp only [parseClAux, hv] at h
              cases hset : setNestedGo res (splitChar ':' (joinColon lp.1)) v with
              | error e => simp only [hset] at h; simp at h
              | ok res2 =>
                  simp only [hset] at h
                  have hlp := hok lp (List.mem_cons_self lp rest)
                  have hrt : splitChar ':' (joinColon lp.1) = lp.1 :=
                    splitChar_joinColon lp.1 hlp.1 hlp.2
                  rw [hrt] at hset
                  rw [ih res2 h (fun q hq => hinc q (List.mem_cons_of_mem lp hq))
                    (fun q hq => hok q (List.mem_cons_of_mem lp hq))]
                  exact getNested_setNestedGo_incomp lp.1 L res res2 v hset
                    (hinc lp (List.mem_cons_self lp rest))

/-- Value characterization of a successful `parse_cl_args` run: each
parameter's lineage in the output holds exactly the value argparse
assigned to its option; a parameter whose option stayed `None` leaves
the start dictionary's reading at its lineage unchanged. -/
theorem parseClAux_value (pfx : String) (tokens : List String)
    (ps : List (List String × Param)) (res : PyDict)
    {out : PyDict} {L : List String} {p : Param}
    (h : parseClAux pfx tokens ps res = .ok out)
    (hpair : ps.Pairwise lineageIncomp)
    (hok : ∀ lp ∈ ps, lp.1 ≠ [] ∧ clNamesOK lp.1 = true)
    (hmem : (L, p) ∈ ps) :
    (∀ v, clValue pfx tokens L p = .ok (some v) →
        getNested (.dict out) L = .ok v) ∧
    (clValue pfx tokens L p = .ok Option.none →
        getNested (.dict out) L = getNested (.dict res) L) := by
  induction ps generalizing res with
  | nil => simp at hmem
  | cons lp rest ih =>
      rw [List.pairwise_cons] at hpair
      rcases List.mem_cons.mp hmem with hEq | hmem2
      · -- the head entry is our parameter
        have h1 : lp.1 = L := by rw [← hEq]
        have h2 : lp.2 = p := by rw [← hEq]
        cases hv : clValue pfx tokens lp.1 lp.2 with
        | error e => simp [parseClAux, hv] at h
        | ok ov =>
            cases ov with
            | none =>
                simp only [parseClAux, hv] at h
                have hframe : getNested (.dict out) L = getNested (.dict res) L :=
                  parseClAux_frame pfx tokens rest res L h
                    (fun q hq => incomp_symm (h1 ▸ hpair.1 q hq))
                    (fun q hq => hok q (List.mem_cons_of_mem lp hq))
                constructor
                · intro v hv2
                  rw [h1, h2] at hv
                  rw [hv] at hv2
                  simp at hv2
                · intro _
                  exact hframe
            | some v0 =>
                simp only [parseClAux, hv] at h
                cases hset : setNestedGo res (splitChar ':' (joinColon lp.1)) v0 with
                | error e => simp only [hset] at h; simp at h
                | ok res2 =>
                    simp only [hset] at h
                    have hlp := hok lp (List.mem_cons_self lp rest)
                    have hrt : splitChar ':' (joinColon lp.1) = lp.1 :=
                      splitChar_joinColon lp.1 hlp.1 hlp.2
                    rw [hrt] at hset
                    have hsame : getNested (.dict res2) lp.1 = .ok v0 :=
                      getNested_setNestedGo_same lp.1 res res2 v0 hset
                    have hframe : getNested (.dict out) L = getNested (.dict res2) L :=
                      parseClAux_frame pfx tokens rest res2 L h
                        (fun q hq => incomp_symm (h1 ▸ hpair.1 q hq))
                        (fun q hq => hok q (List.mem_cons_of_mem lp hq))
                    constructor
                    · intro v hv2
                      rw [h1, h2] at hv
                      rw [hv] at hv2
                      simp only [Except.ok.injEq, Option.some.injEq] at hv2
                      subst hv2
                      rw [hframe, ← h1]
                      exact hsame
                    · intro hv2
                      rw [h1, h2] at hv
                      rw [hv] at hv2
                      simp at hv2
      · -- our parameter sits in the tail
        cases hv : clValue pfx tokens lp.1 lp.2 with
        | error e => simp [parseClAux, hv] at h
        | ok ov =>
            cases ov with
            | none =>
                simp only [parseClAux, hv] at h
                exact ih res h hpair.2
                  (fun q hq => hok q (List.mem_cons_of_mem lp hq)) hmem2
            | some v0 =>
                simp only [parseClAux, hv] at h
                cases hset : setNestedGo res (splitChar ':' (joinColon lp.1)) v0 with
                | error e => simp only [hset] at h; simp at h
                | ok res2 =>
                    simp only [hset] at h
                    have hlp := hok lp (List.mem_cons_self lp rest)
                    have hrt : splitChar ':' (joinColon lp.1) = lp.1 :=
                      splitChar_joinColon lp.1 hlp.1 hlp.2
                    rw [hrt] at hset
                    have hres := ih res2 h hpair.2
                      (fun q hq => hok q (List.mem_cons_of_mem lp hq)) hmem2
                    refine ⟨hres.1, fun hnone => ?_⟩
                    rw [hres.2 hnone]
                    exact getNested_setNestedGo_incomp lp.1 L res res2 v0 hset
                      (hpair.1 (L, p) hmem2)

/-- A successful `parse_cl_args` run means every registration
succeeded: each parameter's option value was computed without error. -/
theorem parseClAux_reached (pfx : String) (tokens : List String)
    (ps : List (List String × Param)) (res : PyDict)
    {out : PyDict} {L : List String} {p : Param}
    (h : parseClAux pfx tokens ps res = .ok out)
    (hmem : (L, p) ∈ ps) :
    ∃ ov, clValue pfx tokens L p = .ok ov := by
  induction ps generalizing res with
  | nil => simp at hmem
  | cons lp rest ih =>
      cases hv : clValue pfx tokens lp.1 lp.2 with
      | error e => simp [parseClAux, hv] at h
      | ok ov =>
          rcases List.mem_cons.mp hmem with hEq | hmem2
          · have h1 : lp.1 = L := by rw [← hEq]
            have h2 : lp.2 = p := by rw [← hEq]
            rw [h1, h2] at hv
            exact ⟨ov, hv⟩
          · cases ov with
            | none =>
                simp only [parseClAux, hv] at h
                exact ih res h hmem2
            | some v0 =>
                simp only [parseClAux, hv] at h
                cases hset : setNestedGo res (splitChar ':' (joinColon lp.1)) v0 with
                | error e => simp only [hset] at h; simp at h
                | ok res2 =>
                    simp only [hset] at h
                    exact ih res2 h hmem2

/-- The boolean flag parameter `Parameter.__init__` builds for
`add('b', type=bool)`. -/
def paramBool : Param :=
  { name := "b", type := .boolean, tags := [], required := false,
    is_list := false, description := Option.none, advanced := false,
    default := some (.bool false), restrictions := Option.none }

/-- One-parameter model around `paramBool`. -/
def modelBool : CTDModel :=
  { name := "exampleTool", version := "1.0", opt_attribs := [],
    parameters := .group "1" (some "Parameters of exampleTool")
      [.item paramBool] }

/-- Witness for C10 (amended) at `name = "p"`, with the model around
the defaultless string parameter for the `get_defaults` part. -/
theorem c10_empty_default_witness :
    (∃ p, mkParameter "p"
        { type := some (.py PType.string), default := some (.str "") } = .ok p ∧
      p.default = Option.none) ∧
    getNested (.dict []) ["p"] = .error .keyError :=
  ⟨(c10_empty_default "p").1 PType.string (Or.inl rfl),
   (c10_empty_default "p").2.2.2 modelOpt ["p"] paramStrP []
     (by decide) (by simp [listParameters, modelOpt, leavesList, leavesOf, paramStrP])
     rfl rfl⟩

/-- Counterexample to C8 as stated: a boolean parameter whose flag is
absent from the command line still yields an entry.  `argparse` gives
a `store_true` option the default `False` — not `None` — and
`parse_cl_args` only filters `None` values, so with no tokens at all
the output already holds `False` at the boolean parameter's lineage.
The first conjunct ties the concrete parameter record to
`Parameter.__init__`. -/
theorem c8_counterexample :
    mkParameter "b" { type := some (.name "boolean") } = .ok paramBool ∧
    parseClArgs modelBool [] "--" = .ok [("b", PyVal.bool false)] ∧
    getNested (.dict [("b", PyVal.bool false)]) ["b"] = .ok (PyVal.bool false) :=
  ⟨rfl, rfl, rfl⟩

/-- C8, amended.  In a well-formed model whose parameter names are
nonempty and colon-free, a schema parameter whose flag is absent from
the command-line tokens produces no entry at its lineage in the
`parse_cl_args` output when it is not boolean; a boolean parameter
instead always produces an entry, holding `False` when its flag is
absent. -/
theorem c8_absent_flags (m : CTDModel) (tokens : List String) (pfx : String)
    (out : PyDict) (L : List String) (p : Param)
    (hwf : wfModel m = true)
    (hmem : (L, p) ∈ listParameters m)
    (hok : ∀ lp ∈ listParameters m, clNamesOK lp.1 = true)
    (habs : (pfx ++ joinColon L) ∉ tokens)
    (h : parseClArgs m tokens pfx = .ok out) :
    (p.type ≠ .boolean → getNested (.dict out) L = .error .keyError) ∧
    (p.type = .boolean → getNested (.dict out) L = .ok (PyVal.bool false)) := by
  have hok2 : ∀ lp ∈ listParameters m, lp.1 ≠ [] ∧ clNamesOK lp.1 = true :=
    fun lp hlp => ⟨mem_listParameters_ne_nil m lp hlp, hok lp hlp⟩
  have hval := parseClAux_value pfx tokens (listParameters m) []
    h (listParameters_pairwise m hwf) hok2 hmem
  constructor
  · intro hnb
    have hnone : clValue pfx tokens L p = .ok Option.none := by
      unfold clValue clArgSpec
      rw [if_neg hnb]
      by_cases hil : p.is_list = true
      · rw [if_pos hil]
        show parseOneArg pfx tokens ArgKind.multi (pfx ++ joinColon L) = _
        simp only [parseOneArg]
        rw [lastOcc_of_not_mem tokens (pfx ++ joinColon L) habs]
      · rw [if_neg hil]
        show parseOneArg pfx tokens ArgKind.single (pfx ++ joinColon L) = _
        simp only [parseOneArg]
        rw [lastOcc_of_not_mem tokens (pfx ++ joinColon L) habs]
    rw [hval.2 hnone]
    obtain ⟨k, t, hL⟩ : ∃ k t, L = k :: t := by
      cases hLc : L with
      | nil => exact absurd hLc (mem_listParameters_ne_nil m (L, p) hmem)
      | cons k t => exact ⟨k, t, rfl⟩
    rw [hL]
    exact getNested_nil_cons k t
  · intro hb
    have hfalse : clValue pfx tokens L p = .ok (some (PyVal.bool false)) := by
      obtain ⟨ov, hov⟩ := parseClAux_reached pfx tokens (listParameters m) [] h hmem
      unfold clValue clArgSpec at hov ⊢
      rw [if_pos hb] at hov ⊢
      by_cases hil : p.is_list = true
      · rw [if_pos hil] at hov
        simp at hov
      · rw [if_neg hil]
        show parseOneArg pfx tokens ArgKind.storeTrue (pfx ++ joinColon L) = _
        simp only [parseOneArg]
        rw [contains_eq_false_of_not_mem tokens (pfx ++ joinColon L) habs]
    exact hval.1 (PyVal.bool false) hfalse

/-- Witness for C8 (amended): in the one-boolean-flag model with an
empty command line the output holds `False` at `b`; in the
one-string-parameter model with an empty command line the output has
no entry at `p`. -/
theorem c8_absent_flags_witness :
    (parseClArgs modelBool [] "--" = .ok [("b", PyVal.bool false)] ∧
      getNested (.dict [("b", PyVal.bool false)]) ["b"] = .ok (PyVal.bool false)) ∧
    (parseClArgs modelOpt [] "--" = .ok [] ∧
      getNested (.dict ([] : PyDict)) ["p"] = .error .keyError) :=
  ⟨⟨rfl,
    (c8_absent_flags modelBool [] "--" [("b", PyVal.bool false)] ["b"] paramBool
      rfl (List.mem_cons_self _ _)
      (fun lp hlp => by
        have hlp2 : lp = (["b"], paramBool) := List.mem_singleton.mp hlp
        rw [hlp2]
        rfl)
      (by simp) rfl).2 rfl⟩,
   ⟨rfl,
    (c8_absent_flags modelOpt [] "--" [] ["p"] paramStrP
      rfl (List.mem_cons_self _ _)
      (fun lp hlp => by
        have hlp2 : lp = (["p"], paramStrP) := List.mem_singleton.mp hlp
        rw [hlp2]
        rfl)
      (by simp) rfl).1 (by decide)⟩⟩

/-! CTD document codec (`generate_ctd_tree` / `_load_from_file`).  XML
writing followed by re-parsing is modelled as the identity on element
trees: both directions of the claim go through the same element-tree
shape the `xml.etree.ElementTree` calls build and walk. -/

/-- An `xml.etree.ElementTree.Element`: tag, attribute dictionary (in
insertion order), child elements and text. -/
inductive XElem where
  | mk (tag : String) (attribs : List (String × String))
      (children : List XElem) (text : Option String)

def XElem.tagOf : XElem → String
  | .mk t _ _ _ => t

def XElem.attribsOf : XElem → List (String × String)
  | .mk _ a _ _ => a

def XElem.childrenOf : XElem → List XElem
  | .mk _ _ cs _ => cs

def XElem.textOf : XElem → Option String
  | .mk _ _ _ tx => tx

/-- Key lookup in an association list (a Python dictionary read). -/
def assocGet {α : Type} : List (String × α) → String → Option α
  | [], _ => Option.none
  | kv :: rest, key => if kv.1 = key then some kv.2 else assocGet rest key

/-- `Element.find`: the first direct child carrying the tag. -/
def xFindIn : List XElem → String → Option XElem
  | [], _ => Option.none
  | c :: cs, t => if c.tagOf = t then some c else xFindIn cs t

def xFind (e : XElem) (t : String) : Option XElem := xFindIn e.childrenOf t

/-- `','.join` over a list of strings. -/
def joinComma : List String → String
  | [] => ""
  | [s] => s
  | s :: rest => s ++ "," ++ joinComma rest

/-- Python `c in s` for a single character. -/
def strContainsChar (c : Char) (s : String) : Bool := s.data.contains c

/-- The XML attributes `Parameter._xml_node` emits, in insertion
order: name, value (scalar parameters only, booleans lowercased by
truthiness, `None` rendered as the empty string), type, then
description/tags/restrictions when truthy/present.  Serializing a
choices restriction over non-string values raises `TypeError`. -/
def paramXmlAttribs (p : Param) (value : Option PyVal) :
    Except PyErr (List (String × String)) :=
  let restrAttrsE : Except PyErr (List (String × String)) :=
    match p.restrictions with
    | some r =>
        match ctdRestrictionString r with
        | .error e => .error e
        | .ok s =>
            .ok (match r with
              | .numericRange _ _ _ => [("restrictions", s)]
              | .choices _ => [("restrictions", s)]
              | .fileFormat _ => [("supported_formats", s)])
    | Option.none => .ok []
  match restrAttrsE with
  | .error e => .error e
  | .ok restrAttrs =>
      .ok ([("name", p.name)]
        ++ (if p.is_list then [] else
             [("value",
               if p.type = .boolean then
                 (if (match value with
                      | some v => pyTruthy v
                      | Option.none => false) then "true" else "false")
               else
                 match value with
                 | some v => pyStr v
                 | Option.none => "")])
        ++ [("type", typeToCtdtype p.type)]
        ++ (match p.description with
            | some d => if d = "" then [] else [("description", d)]
            | Option.none => [])
        ++ (if p.tags.isEmpty then [] else [("tags", joinComma p.tags)])
        ++ restrAttrs)

/-- `Parameter._xml_node` after the value has been resolved: an `ITEM`
for scalars, an `ITEMLIST` with one `LISTITEM` per element (`str(d)`)
for lists; iterating a non-iterable list value raises `TypeError`. -/
def paramXml (p : Param) (value : Option PyVal) : Except PyErr XElem :=
  match paramXmlAttribs p value with
  | .error e => .error e
  | .ok attribs =>
      if p.is_list then
        match value with
        | Option.none => .ok (.mk "ITEMLIST" attribs [] Option.none)
        | some v =>
            match pyIter v with
            | .error e => .error e
            | .ok ds =>
                .ok (.mk "ITEMLIST" attribs
                  (ds.map (fun d =>
                    XElem.mk "LISTITEM" [("value", pyStr d)] [] Option.none))
                  Option.none)
      else .ok (.mk "ITEM" attribs [] Option.none)

mutual

/-- `_xml_node` over the model tree.  `path` is the lineage prefix of
the node's children; a leaf resolves its value from `arg_dict` at its
lineage, falling back to its default on `KeyError` (other lookup
errors propagate, as only `KeyError` is caught). -/
def nodeXml (argDict : Option PyDict) (path : List String) :
    PNode → Except PyErr XElem
  | .item p =>
      let valueE : Except PyErr (Option PyVal) :=
        match argDict with
        | Option.none => .ok p.default
        | some d =>
            match getNested (.dict d) (path ++ [p.name]) with
            | .ok v => .ok (some v)
            | .error .keyError => .ok p.default
            | .error e => .error e
      match valueE with
      | .error e => .error e
      | .ok value => paramXml p value
  | .group nm desc cs =>
      match nodesXml argDict (path ++ [nm]) cs with
      | .error e => .error e
      | .ok children =>
          .ok (.mk "NODE"
            ([("name", nm)] ++
              (match desc with
               | some d => if d = "" then [] else [("description", d)]
               | Option.none => []))
            children Option.none)

def nodesXml (argDict : Option PyDict) (path : List String) :
    List PNode → Except PyErr (List XElem)
  | [] => .ok []
  | n :: ns =>
      match nodeXml argDict path n with
      | .error e => .error e
      | .ok x =>
          match nodesXml argDict path ns with
          | .error e => .error e
          | .ok xs => .ok (x :: xs)

end

/-- `self.parameters._xml_node(arg_dict)` on the parentless root
group: its name is excluded from its children's lineages, as
`get_lineage` stops below the parentless root. -/
def rootXml (argDict : Option PyDict) : PNode → Except PyErr XElem
  | .group nm desc cs =>
      match nodesXml argDict [] cs with
      | .error e => .error e
      | .ok children =>
          .ok (.mk "NODE"
            ([("name", nm)] ++
              (match desc with
               | some d => if d = "" then [] else [("description", d)]
               | Option.none => []))
            children Option.none)
  | .item p => nodeXml argDict [] (.item p)

/-- The `<tool>` attributes of `generate_ctd_tree`, in insertion
order; absent optional values render as the empty string (in the
source a `None` value would make the tree unserializable). -/
def toolAttribs (m : CTDModel) : List (String × String) :=
  [("version", m.version), ("name", m.name),
   ("xmlns:xsi", "http://www.w3.org/2001/XMLSchema-instance"),
   ("xsi:schemaLocation",
     "https://github.com/genericworkflownodes/CTDopts/raw/master/schemas/CTD_0_3.xsd")]
  ++ (["docurl", "category"].filterMap (fun oo =>
        match assocGet m.opt_attribs oo with
        | some v => some (oo, v.getD "")
        | Option.none => Option.none))

/-- The optional child elements of `<tool>`, each carrying its stored
text. -/
def optElements (m : CTDModel) : List XElem :=
  ["manual", "description", "executableName", "executablePath"].filterMap
    (fun key =>
      match assocGet m.opt_attribs key with
      | some v => some (XElem.mk key [] [] v)
      | Option.none => Option.none)

/-- `self.opt_attribs.get('description', '')` for the synthetic top
`NODE`; a stored `None` collapses to the empty string here because a
`None` attribute cannot be rendered. -/
def descrOf (m : CTDModel) : String :=
  match assocGet m.opt_attribs "description" with
  | some (some s) => s
  | some Option.none => ""
  | Option.none => ""

/-- The optional `<log>` element built from the log dictionary. -/
def logXml (log : List (String × String)) : XElem :=
  XElem.mk "log"
    ((match assocGet log "time_start" with
      | some v => [("executionTimeStart", v)]
      | Option.none => []) ++
     (match assocGet log "time_finish" with
      | some v => [("executionTimeStop", v)]
      | Option.none => []) ++
     (match assocGet log "status" with
      | some v => [("executionStatus", v)]
      | Option.none => []))
    ((match assocGet log "output" with
      | some v => [XElem.mk "executionMessage" [] [] (some v)]
      | Option.none => []) ++
     (match assocGet log "warning" with
      | some v => [XElem.mk "executionWarning" [] [] (some v)]
      | Option.none => []) ++
     (match assocGet log "error" with
      | some v => [XElem.mk "executionError" [] [] (some v)]
      | Option.none => []))
    Option.none

/-- `CTDModel.generate_ctd_tree`: the `<tool>` boilerplate, the
optional elements and log block, and `PARAMETERS > NODE(name=tool) >
[version ITEM, parameter tree]`. -/
def generateCtdTree (m : CTDModel) (argDict : Option PyDict)
    (log : Option (List (String × String))) : Except PyErr XElem :=
  match rootXml argDict m.parameters with
  | .error e => .error e
  | .ok argsTop =>
      .ok (XElem.mk "tool" (toolAttribs m)
        (optElements m
          ++ (match log with
              | some lg => [logXml lg]
              | Option.none => [])
          ++ [XElem.mk "PARAMETERS"
               [("version", "1.6.2"),
                ("xmlns:xsi", "http://www.w3.org/2001/XMLSchema-instance"),
                ("xsi:noNamespaceSchemaLocation",
                  "https://github.com/genericworkflownodes/CTDopts/raw/master/schemas/Param_1_6_2.xsd")]
               [XElem.mk "NODE"
                 [("name", m.name), ("description", descrOf m)]
                 [XElem.mk "ITEM"
                   [("name", "version"), ("value", m.version),
                    ("type", "string"),
                    ("description",
                      "Version of the tool that generated this parameters file."),
                    ("tags", "advanced")]
                   [] Option.none,
                  argsTop]
                 Option.none]
               Option.none])
        Option.none)

/-- `_translate_ctd_to_param` plus the keyword passing of
`base.add(**setup)`: renames `value` to `default` and
`supported_formats` to `file_formats`, classifies a `restrictions`
attribute by its separator (`ModelParsingError` when neither, an
uncaught `ValueError` when a range has more or fewer than two parts),
and routes the remaining attributes into the constructor keywords.
All values arrive as XML attribute strings. -/
def translateCtdToParam (a : List (String × String)) :
    Except MErr ParamKwargs :=
  let kw0 : ParamKwargs :=
    { type := (assocGet a "type").map (fun s => .name s),
      default :=
        match assocGet a "value" with
        | some s => some (.str s)
        | Option.none => (assocGet a "default").map (fun s => .str s),
      is_list := (assocGet a "is_list").map (fun s => .str s),
      required := (assocGet a "required").map (fun s => .str s),
      description := assocGet a "description",
      tags := (assocGet a "tags").map (fun s => .ofStr s),
      advanced := (assocGet a "advanced").map (fun s => .str s),
      num_range := Option.none,
      choices := Option.none,
      file_formats :=
        match assocGet a "supported_formats" with
        | some s => some (.ofStr s)
        | Option.none => (assocGet a "file_formats").map (fun s => .ofStr s) }
  match assocGet a "restrictions" with
  | Option.none => .ok kw0
  | some rs =>
      if strContainsChar ',' rs then
        .ok { kw0 with
          choices := some (.list ((splitChar ',' rs).map (fun s => .str s))) }
      else if strContainsChar ':' rs then
        match splitChar ':' rs with
        | [a1, b1] =>
            let lo : Option PyVal := if a1 = "" then Option.none else some (.str a1)
            let hi : Option PyVal := if b1 = "" then Option.none else some (.str b1)
            .ok { kw0 with num_range := some (lo, hi) }
        | _ => .error (.pyErr .valueError)
      else
        .error (.modelParsing ("Invalid restriction [" ++ rs ++ "]"))

/-- `[listitem.attrib['value'] for listitem in element]`: every child
must carry a `value` attribute (`KeyError` otherwise). -/
def listItemValues : List XElem → Except MErr (List PyVal)
  | [] => .ok []
  | c :: cs =>
      match assocGet c.attribsOf "value" with
      | Option.none => .error (.pyErr .keyError)
      | some v =>
          match listItemValues cs with
          | .error e => .error e
          | .ok vs => .ok (.str v :: vs)

mutual

/-- `_build_param_model`: a `NODE` becomes a group (description
defaulting to the empty string) built from its children, an `ITEM` or
`ITEMLIST` registers a parameter through the constructor, every other
tag registers nothing.  A missing `name` raises (`KeyError` for a
`NODE` attribute lookup, `TypeError` for `add` missing its positional
argument). -/
def buildParamModel : XElem → Except MErr (Option PNode)
  | .mk tag a cs _ =>
      if tag = "NODE" then
        match assocGet a "name" with
        | Option.none => .error (.pyErr .keyError)
        | some nm =>
            match buildChildren cs with
            | .error e => .error e
            | .ok children =>
                .ok (some (.group nm (some ((assocGet a "description").getD ""))
                  children))
      else if tag = "ITEM" then
        match translateCtdToParam a with
        | .error e => .error e
        | .ok kw =>
            match assocGet a "name" with
            | Option.none => .error (.pyErr .typeError)
            | some nm =>
                match mkParameter nm kw with
                | .error e => .error e
                | .ok p => .ok (some (.item p))
      else if tag = "ITEMLIST" then
        match translateCtdToParam a with
        | .error e => .error e
        | .ok kw =>
            match listItemValues cs with
            | .error e => .error e
            | .ok vs =>
                match assocGet a "name" with
                | Option.none => .error (.pyErr .typeError)
                | some nm =>
                    match mkParameter nm { kw with
                        default := some (.list vs),
                        is_list := some (.bool true) } with
                    | .error e => .error e
                    | .ok p => .ok (some (.item p))
      else .ok Option.none

def buildChildren : List XElem → Except MErr (List PNode)
  | [] => .ok []
  | c :: cs =>
      match buildParamModel c with
      | .error e => .error e
      | .ok Option.none => buildChildren cs
      | .ok (some n) =>
          match buildChildren cs with
          | .error e => .error e
          | .ok ns => .ok (n :: ns)

end

/-- `_build_param_model(element, base=None)` on the chosen container
node, which `find('NODE')` guarantees to be a `NODE` (any other tag
would leave the model without a parameter tree, failing on first
use). -/
def buildRoot (e : XElem) : Except MErr PNode :=
  match buildParamModel e with
  | .error e => .error e
  | .ok (some n) => .ok n
  | .ok Option.none => .error (.pyErr .attributeError)

/-- The last `PARAMETERS` child wins, as each assignment to
`self.parameters` overwrites the previous one. -/
def lastParameters : List XElem → Option XElem
  | [] => Option.none
  | c :: cs =>
      match lastParameters cs with
      | some e => some e
      | Option.none => if c.tagOf = "PARAMETERS" then some c else Option.none

/-- The `PARAMETERS` handling of `_load_from_file`: descend into the
first `NODE`; if it holds a direct `ITEM` child, or an `ITEMLIST`
child that is truthy (a Python `Element` is truthy iff it has
children), build from it, otherwise descend one further `NODE`
(OpenMS legacy `PARAMETERS/NODE/NODE`). -/
def processParametersElem (pe : XElem) : Except MErr PNode :=
  match xFind pe "NODE" with
  | Option.none => .error (.pyErr .attributeError)
  | some pcn =>
      let containsItems : Bool :=
        (xFind pcn "ITEM").isSome ||
          (match xFind pcn "ITEMLIST" with
           | some e => !e.childrenOf.isEmpty
           | Option.none => false)
      match xFind pcn "NODE" with
      | Option.none => buildRoot pcn
      | some params =>
          if containsItems then buildRoot pcn else buildRoot params

/-- `CTDModel._load_from_file` on an already-parsed document tree:
asserts the `tool` root and its `name`/`version` attributes, collects
the optional attributes and elements, and builds the parameter tree
from the last `PARAMETERS` element (a document without one leaves the
model without a parameter tree, failing on first use). -/
def loadFromTree (root : XElem) : Except MErr CTDModel :=
  if root.tagOf ≠ "tool" then
    .error (.assertionError "Invalid CTD file, root is not <tool>")
  else
    match assocGet root.attribsOf "name" with
    | Option.none => .error (.assertionError "CTD tool is missing a name attribute")
    | some nm =>
        match assocGet root.attribsOf "version" with
        | Option.none =>
            .error (.assertionError "CTD tool is missing a version attribute")
        | some ver =>
            match lastParameters root.childrenOf with
            | Option.none => .error (.pyErr .attributeError)
            | some pe =>
                match processParametersElem pe with
                | .error e => .error e
                | .ok pn =>
                    .ok { name := nm, version := ver,
                          opt_attribs :=
                            (["docurl", "category"].filterMap (fun key =>
                              (assocGet root.attribsOf key).map
                                (fun v => (key, some v))))
                            ++ (root.childrenOf.filterMap (fun c =>
                                 if c.tagOf = "manual" ∨ c.tagOf = "description"
                                     ∨ c.tagOf = "executableName"
                                     ∨ c.tagOf = "executablePath"
                                 then some (c.tagOf, c.textOf)
                                 else Option.none)),
                          parameters := pn }

/-- C1 fails in the code: the write/reload round trip does not
reproduce the argument values at their original lineages.  Serializing
the one-optional-string-parameter model with `D = {p: 'hello'}` and
reloading yields a model whose top `NODE` still holds the synthetic
`version` `ITEM`, so `_load_from_file`'s shape check
(`find('ITEM') is not None`) keeps the whole container — including the
legacy `NODE name="1"` wrapper — as the parameter tree.  The rebuilt
model's parameters sit at `['version']` and `['1', 'p']`, and
validating `D` against it returns
`{'version': '1.0', '1': {'p': 'hello'}}`: there is no entry at
`['p']`, so `D`'s value is not reproduced at its lineage (nor is the
result equal to `D` modulo stringification). -/
theorem c1_roundtrip_bug :
    ∃ tree m2,
      generateCtdTree modelOpt (some [("p", PyVal.str "hello")]) Option.none =
        .ok tree ∧
      loadFromTree tree = .ok m2 ∧
      (listParameters m2).map Prod.fst = [["version"], ["1", "p"]] ∧
      validateArgs m2 [("p", PyVal.str "hello")] 0 0 0 =
        .ok ([("version", PyVal.str "1.0"),
              ("1", PyVal.dict [("p", PyVal.str "hello")])], []) ∧
      getNested (.dict [("version", PyVal.str "1.0"),
              ("1", PyVal.dict [("p", PyVal.str "hello")])]) ["p"] =
        .error .keyError ∧
      getNested (.dict [("p", PyVal.str "hello")]) ["p"] =
        .ok (PyVal.str "hello") :=
  ⟨_, _, rfl, rfl, rfl, rfl, rfl, rfl⟩

/-! Heap-level model of `validate_args` (claim C9).  Python
dictionaries are mutable objects; to state that `validate_args` never
mutates its input and returns a freshly allocated nested dictionary,
dictionaries become numbered heap cells and dictionary values become
references.  The type coercion and the restriction check only read
the heap (`int()`, `str()`, `CAST_BOOLEAN`, `map`, `check` perform no
dictionary writes), so they enter the model as arbitrary read-only
functions: the theorem holds for every such function, in particular
for the source's. -/

/-- A Python runtime value with dictionary identity: a dictionary is
a reference to a heap cell. -/
inductive HVal where
  | none
  | bool (b : Bool)
  | int (n : Int)
  | float (q : Rat)
  | str (s : String)
  | list (xs : List HVal)
  | ref (a : Nat)

/-- The dictionary heap: cell `a` holds the entries of dictionary
object `a`, in insertion order. -/
structure Heap where
  cells : List (List (String × HVal))

/-- Reading key `k` of dictionary object `a`. -/
def cellGet (heap : Heap) (a : Nat) (k : String) : Option HVal :=
  assocGet (heap.cells.getD a []) k

/-- Python dictionary assignment: an existing key is updated in
place, a new key is appended. -/
def assocSet : List (String × HVal) → String → HVal → List (String × HVal)
  | [], k, v => [(k, v)]
  | kv :: rest, k, v =>
      if kv.1 = k then (k, v) :: rest else kv :: assocSet rest k v

/-- `heap.cells[a][k] = v`. -/
def cellSet (heap : Heap) (a : Nat) (k : String) (v : HVal) : Heap :=
  ⟨heap.cells.set a (assocSet (heap.cells.getD a []) k v)⟩

/-- Allocation of a fresh empty dictionary (`{}`), at the next
address. -/
def allocCell (heap : Heap) : Heap := ⟨heap.cells ++ [[]]⟩

/-- `get_nested_key` on the heap: successive indexing; indexing a
non-dictionary with a string key raises `TypeError`. -/
def getNestedH (heap : Heap) : HVal → List String → Except PyErr HVal
  | v, [] => .ok v
  | .ref a, k :: rest =>
      match cellGet heap a k with
      | some w => getNestedH heap w rest
      | Option.none => .error .keyError
  | _, _ :: _ => .error .typeError

/-- `set_nested_key` on the heap: walk all levels but the last,
allocating `{}` for missing levels, then assign at the last level.
Descending into a non-dictionary raises `TypeError`, an empty key
tuple `IndexError`. -/
def setNestedHGo : Heap → Nat → List String → HVal → Except PyErr Heap
  | _, _, [], _ => .error .indexError
  | heap, a, [k], v => .ok (cellSet heap a k v)
  | heap, a, k :: k2 :: rest, v =>
      match cellGet heap a k with
      | some (.ref b) => setNestedHGo heap b (k2 :: rest) v
      | some _ => .error .typeError
      | Option.none =>
          setNestedHGo (cellSet (allocCell heap) a k (.ref heap.cells.length))
            heap.cells.length (k2 :: rest) v

mutual

/-- Rendering of a model default (a pure value from the schema) as a
runtime value.  Constructor-built parameters never hold dictionary
defaults (`Parameter.__init__` casts every default through the scalar
casts), so the dictionary case has no rendering. -/
def pyToH : PyVal → Option HVal
  | .none => some .none
  | .bool b => some (.bool b)
  | .int n => some (.int n)
  | .float q => some (.float q)
  | .str s => some (.str s)
  | .list xs =>
      match pyToHList xs with
      | some hs => some (.list hs)
      | Option.none => Option.none
  | .dict _ => Option.none

/-- Elementwise rendering of a list default. -/
def pyToHList : List PyVal → Option (List HVal)
  | [] => some []
  | x :: xs =>
      match pyToH x with
      | some h =>
          match pyToHList xs with
          | some hs => some (h :: hs)
          | Option.none => Option.none
      | Option.none => Option.none

end

/-- What a heap-level `validate_args` call can raise (the exception
objects' value payloads play no role in the heap discipline). -/
inductive HErr where
  | argumentMissing (paramName : String)
  | argumentType (paramName : String)
  | argumentRestriction (paramName : String)
  | pyErr (e : PyErr)
deriving DecidableEq, Repr

/-- Restriction policy and store, on the heap (`finishParam`'s
counterpart). -/
def finishParamH (checkFn : Heap → Restriction → HVal → Except PyErr Bool)
    (es : Nat) (lin : List String) (p : Param) (v : HVal)
    (heap : Heap) (root : Nat) : Except HErr Heap :=
  let restr : Except HErr Bool :=
    if es ≠ 0 then
      match p.restrictions with
      | some r =>
          match checkFn heap r v with
          | .ok true => .ok true
          | .ok false =>
              if es = 1 then .ok false
              else .error (.argumentRestriction (joinColon lin))
          | .error e => .error (.pyErr e)
      | Option.none => .ok true
    else .ok true
  match restr with
  | .ok _ =>
      match setNestedHGo heap root lin v with
      | .ok heap2 => .ok heap2
      | .error e => .error (.pyErr e)
  | .error e => .error e

/-- One parameter of the heap-level `validate_args` loop
(`processParam`'s counterpart; `castFn` stands for the read-only
`map(typecast, arg) if param.is_list else typecast(arg)` step). -/
def processParamH (castFn : Heap → Param → HVal → Except PyErr HVal)
    (checkFn : Heap → Restriction → HVal → Except PyErr Bool)
    (er et es : Nat) (argsRoot root : Nat)
    (heap : Heap) (lp : List String × Param) : Except HErr Heap :=
  let lin := lp.1
  let p := lp.2
  match getNestedH heap (.ref argsRoot) lin with
  | .error .keyError =>
      if p.required then
        if er = 0 then .ok heap
        else if er = 1 then .ok heap
        else .error (.argumentMissing (joinColon lin))
      else
        match (match p.default with
               | some d => pyToH d
               | Option.none => some HVal.none) with
        | some hv =>
            match setNestedHGo heap root lin hv with
            | .ok heap2 => .ok heap2
            | .error e => .error (.pyErr e)
        | Option.none => .error (.pyErr .typeError)
  | .error e => .error (.pyErr e)
  | .ok arg =>
      match castFn heap p arg with
      | .ok v => finishParamH checkFn es lin p v heap root
      | .error .valueError =>
          if et = 0 then finishParamH checkFn es lin p arg heap root
          else if et = 1 then finishParamH checkFn es lin p arg heap root
          else .error (.argumentType (joinColon lin))
      | .error e => .error (.pyErr e)

/-- The heap-level `validate_args` loop. -/
def validateHAux (castFn : Heap → Param → HVal → Except PyErr HVal)
    (checkFn : Heap → Restriction → HVal → Except PyErr Bool)
    (er et es : Nat) (argsRoot root : Nat) :
    List (List String × Param) → Heap → Except HErr Heap
  | [], heap => .ok heap
  | lp :: rest, heap =>
      match processParamH castFn checkFn er et es argsRoot root heap lp with
      | .ok heap2 =>
          validateHAux castFn checkFn er et es argsRoot root rest heap2
      | .error e => .error e

/-- Heap-level `CTDModel.validate_args`: allocate the fresh
`validated_args = {}` cell, run the loop, return the heap and the
address of the output dictionary. -/
def validateH (castFn : Heap → Param → HVal → Except PyErr HVal)
    (checkFn : Heap → Restriction → HVal → Except PyErr Bool)
    (m : CTDModel) (er et es : Nat)
    (heap : Heap) (argsRoot : Nat) : Except HErr (Heap × Nat) :=
  let root := heap.cells.length
  match validateHAux castFn checkFn er et es argsRoot root
      (listParameters m) (allocCell heap) with
  | .ok heap2 => .ok (heap2, root)
  | .error e => .error e

theorem assocGet_assocSet_same (l : List (String × HVal)) (k : String) (v : HVal) :
    assocGet (assocSet l k v) k = some v := by
  induction l with
  | nil => simp [assocSet, assocGet]
  | cons kv rest ih =>
      by_cases h : kv.1 = k
      · simp [assocSet, assocGet, h]
      · simp only [assocSet, if_neg h, assocGet]
        exact ih

theorem assocGet_assocSet_ne (l : List (String × HVal)) (k k2 : String)
    (v : HVal) (h : k ≠ k2) :
    assocGet (assocSet l k v) k2 = assocGet l k2 := by
  induction l with
  | nil => simp [assocSet, assocGet, h]
  | cons kv rest ih =>
      by_cases hk : kv.1 = k
      · simp only [assocSet, if_pos hk, assocGet]
        rw [if_neg h, if_neg (hk ▸ h)]
      · simp only [assocSet, if_neg hk, assocGet]
        by_cases hk2 : kv.1 = k2
        · rw [if_pos hk2, if_pos hk2]
        · rw [if_neg hk2, if_neg hk2]
          exact ih

theorem getD_set_same {α : Type} (l : List α) (i : Nat) (x d : α)
    (h : i < l.length) : (l.set i x).getD i d = x := by
  induction l generalizing i with
  | nil => simp at h
  | cons a rest ih =>
      cases i with
      | zero => simp [List.set, List.getD]
      | succ n =>
          simp only [List.set, List.getD_cons_succ]
          exact ih n (by simpa using h)

theorem getD_set_ne {α : Type} (l : List α) (i j : Nat) (x d : α)
    (h : i ≠ j) : (l.set i x).getD j d = l.getD j d := by
  induction l generalizing i j with
  | nil => simp [List.set]
  | cons a rest ih =>
      cases i with
      | zero =>
          cases j with
          | zero => exact absurd rfl h
          | succ m => simp [List.set]
      | succ n =>
          cases j with
          | zero => simp [List.set]
          | succ m =>
              simp only [List.set, List.getD_cons_succ]
              exact ih n m (fun hEq => h (by rw [hEq]))

theorem getD_append_lt {α : Type} (l l2 : List α) (i : Nat) (d : α)
    (h : i < l.length) : (l ++ l2).getD i d = l.getD i d := by
  induction l generalizing i with
  | nil => simp at h
  | cons a rest ih =>
      cases i with
      | zero => simp
      | succ n =>
          simp only [List.cons_append, List.getD_cons_succ]
          exact ih n (by simpa using h)

theorem getD_append_self {α : Type} (l : List α) (x d : α) :
    (l ++ [x]).getD l.length d = x := by
  induction l with
  | nil => rfl
  | cons a rest ih => simp [ih]

theorem take_set_of_le {α : Type} (l : List α) (i : Nat) (x : α) (n : Nat)
    (h : n ≤ i) : (l.set i x).take n = l.take n := by
  induction l generalizing i n with
  | nil => simp [List.set]
  | cons a rest ih =>
      cases i with
      | zero =>
          have hn : n = 0 := Nat.le_zero.mp h
          simp [hn]
      | succ m =>
          cases n with
          | zero => simp
          | succ n2 =>
              simp only [List.set, List.take_succ_cons]
              rw [ih m n2 (Nat.succ_le_succ_iff.mp h)]

theorem take_append_of_le {α : Type} (l l2 : List α) (n : Nat)
    (h : n ≤ l.length) : (l ++ l2).take n = l.take n := by
  induction l generalizing n with
  | nil =>
      have hn : n = 0 := Nat.le_zero.mp (by simpa using h)
      simp [hn]
  | cons a rest ih =>
      cases n with
      | zero => simp
      | succ n2 =>
          simp only [List.cons_append, List.take_succ_cons]
          rw [ih n2 (by simpa using h)]

theorem cellGet_cellSet_same (heap : Heap) (a : Nat) (k : String) (v : HVal)
    (h : a < heap.cells.length) :
    cellGet (cellSet heap a k v) a k = some v := by
  unfold cellGet cellSet
  simp only
  rw [getD_set_same _ _ _ _ h]
  exact assocGet_assocSet_same _ _ _

theorem cellGet_cellSet_ne_key (heap : Heap) (a : Nat) (k k2 : String)
    (v : HVal) (h : a < heap.cells.length) (hk : k ≠ k2) :
    cellGet (cellSet heap a k v) a k2 = cellGet heap a k2 := by
  unfold cellGet cellSet
  simp only
  rw [getD_set_same _ _ _ _ h]
  exact assocGet_assocSet_ne _ _ _ _ hk

theorem cellGet_cellSet_ne_addr (heap : Heap) (a a2 : Nat) (k k2 : String)
    (v : HVal) (ha : a ≠ a2) :
    cellGet (cellSet heap a k v) a2 k2 = cellGet heap a2 k2 := by
  unfold cellGet cellSet
  simp only
  rw [getD_set_ne _ _ _ _ _ ha]

theorem cellGet_allocCell_lt (heap : Heap) (a : Nat) (k : String)
    (h : a < heap.cells.length) :
    cellGet (allocCell heap) a k = cellGet heap a k := by
  unfold cellGet allocCell
  simp only
  rw [getD_append_lt _ _ _ _ h]

theorem cellGet_allocCell_self (heap : Heap) (k : String) :
    cellGet (allocCell heap) heap.cells.length k = Option.none := by
  unfold cellGet allocCell
  simp only
  rw [getD_append_self]
  rfl

/-- Shape invariant of the freshly built output region.  `n0` is the
input heap's size, so cells below `n0` belong to the caller.  `paths`
assigns each output cell `n0 + j` the key path reaching it from the
output root (cell `n0`), and `done` records the lineages already
written to: every stored entry either sits at a written lineage — and
is never walked into again, since a well-formed model's lineages are
prefix-free — or is the link to the child cell one key deeper. -/
structure HInv (n0 : Nat) (heap : Heap) (done paths : List (List String)) : Prop where
  len : heap.cells.length = n0 + paths.length
  ne : paths ≠ []
  head0 : paths.getD 0 [] = []
  inj : ∀ j1 j2, j1 < paths.length → j2 < paths.length →
      paths.getD j1 [] = paths.getD j2 [] → j1 = j2
  links : ∀ j, j < paths.length → ∀ k v, cellGet heap (n0 + j) k = some v →
      (paths.getD j [] ++ [k]) ∈ done ∨
      ∃ j2, j2 < paths.length ∧ v = HVal.ref (n0 + j2) ∧
        paths.getD j2 [] = paths.getD j [] ++ [k]
  parents : ∀ j2, j2 < paths.length → ∀ Q k, paths.getD j2 [] = Q ++ [k] →
      ∃ j, j < paths.length ∧ paths.getD j [] = Q ∧
        (cellGet heap (n0 + j) k = some (HVal.ref (n0 + j2)) ∨ (Q ++ [k]) ∈ done)

theorem leadsTo_append (A B : List String) : leadsTo A (A ++ B) = true := by
  induction A with
  | nil => rfl
  | cons a rest ih => simp [leadsTo, ih]

theorem incomp_not_leads {P F : List String} (h : incomp P F = true)
    (hlt : leadsTo P F = true) : False := by
  rw [incomp, hlt] at h
  simp at h

theorem concat_inj {α : Type} (A Q : List α) (a b : α)
    (h : A ++ [a] = Q ++ [b]) : A = Q ∧ a = b := by
  have h1 := congrArg List.dropLast h
  have h2 := congrArg List.getLast? h
  simp only [List.dropLast_concat] at h1
  simp only [List.getLast?_concat, Option.some.injEq] at h2
  exact ⟨h1, h2⟩

/-- A leaf write at an output cell preserves the invariant, recording
the written lineage. -/
theorem HInv_cellSet_leaf (n0 : Nat) (heap : Heap)
    (done paths : List (List String)) (j : Nat) (k : String) (v : HVal)
    (hinv : HInv n0 heap done paths) (hj : j < paths.length) :
    HInv n0 (cellSet heap (n0 + j) k v)
      (done ++ [paths.getD j [] ++ [k]]) paths := by
  have haddr : n0 + j < heap.cells.length := by
    rw [hinv.len]; exact Nat.add_lt_add_left hj n0
  have hlen2 : (cellSet heap (n0 + j) k v).cells.length = heap.cells.length := by
    simp [cellSet]
  refine ⟨?_, hinv.ne, hinv.head0, hinv.inj, ?_, ?_⟩
  · rw [hlen2, hinv.len]
  · intro jq hjq kq vq hget
    by_cases hjj : jq = j
    · subst hjj
      by_cases hkk : kq = k
      · subst hkk
        left
        exact List.mem_append_right _ (List.mem_singleton.mpr rfl)
      · rw [cellGet_cellSet_ne_key heap (n0 + jq) k kq v haddr
          (fun hEq => hkk hEq.symm)] at hget
        rcases hinv.links jq hjq kq vq hget with hdone | hlink
        · exact Or.inl (List.mem_append_left _ hdone)
        · exact Or.inr hlink
    · rw [cellGet_cellSet_ne_addr heap (n0 + j) (n0 + jq) k kq v
        (fun hEq => hjj (Nat.add_left_cancel hEq).symm)] at hget
      rcases hinv.links jq hjq kq vq hget with hdone | hlink
      · exact Or.inl (List.mem_append_left _ hdone)
      · exact Or.inr hlink
  · intro j2 hj2 Q k0 hpath
    obtain ⟨j1, hj1, hQ, hdisj⟩ := hinv.parents j2 hj2 Q k0 hpath
    rcases hdisj with hlink | hdone
    · by_cases hjj : j1 = j
      · subst hjj
        by_cases hkk : k0 = k
        · subst hkk
          refine ⟨j1, hj1, hQ, Or.inr ?_⟩
          refine List.mem_append_right _ (List.mem_singleton.mpr ?_)
          rw [hQ]
        · refine ⟨j1, hj1, hQ, Or.inl ?_⟩
          rw [cellGet_cellSet_ne_key heap (n0 + j1) k k0 v haddr
            (fun hEq => hkk hEq.symm)]
          exact hlink
      · refine ⟨j1, hj1, hQ, Or.inl ?_⟩
        rw [cellGet_cellSet_ne_addr heap (n0 + j) (n0 + j1) k k0 v
          (fun hEq => hjj (Nat.add_left_cancel hEq).symm)]
        exact hlink
    · exact ⟨j1, hj1, hQ, Or.inr (List.mem_append_left _ hdone)⟩

/-- Allocating a missing level and linking it from its parent
preserves the invariant, extending the path assignment. -/
theorem HInv_alloc_link (n0 : Nat) (heap : Heap)
    (done paths : List (List String)) (j : Nat) (k : String)
    (hinv : HInv n0 heap done paths) (hj : j < paths.length)
    (hg : cellGet heap (n0 + j) k = Option.none)
    (hnd : (paths.getD j [] ++ [k]) ∉ done) :
    HInv n0 (cellSet (allocCell heap) (n0 + j) k (HVal.ref (n0 + paths.length)))
      done (paths ++ [paths.getD j [] ++ [k]]) := by
  have haddr : n0 + j < heap.cells.length := by
    rw [hinv.len]; exact Nat.add_lt_add_left hj n0
  have halen : (allocCell heap).cells.length = heap.cells.length + 1 := by
    simp [allocCell]
  have haddr2 : n0 + j < (allocCell heap).cells.length := by
    rw [halen]; exact Nat.lt_succ_of_lt haddr
  have hlenp : (paths ++ [paths.getD j [] ++ [k]]).length = paths.length + 1 := by
    simp
  have hpos : 0 < paths.length := List.length_pos.mpr hinv.ne
  have hfresh : ∀ j2, j2 < paths.length →
      paths.getD j2 [] ≠ paths.getD j [] ++ [k] := by
    intro j2 hj2 hEq
    obtain ⟨j1, hj1, hQ, hdisj⟩ := hinv.parents j2 hj2 (paths.getD j []) k hEq
    have hj1j : j1 = j := hinv.inj j1 j hj1 hj hQ
    subst hj1j
    rcases hdisj with hlink | hdone
    · rw [hg] at hlink
      cases hlink
    · exact hnd hdone
  have hgdlt : ∀ i, i < paths.length →
      (paths ++ [paths.getD j [] ++ [k]]).getD i [] = paths.getD i [] :=
    fun i hi => getD_append_lt _ _ _ _ hi
  have hgdself : (paths ++ [paths.getD j [] ++ [k]]).getD paths.length [] =
      paths.getD j [] ++ [k] := getD_append_self _ _ _
  refine ⟨?_, ?_, ?_, ?_, ?_, ?_⟩
  · show (cellSet (allocCell heap) (n0 + j) k _).cells.length = _
    have : (cellSet (allocCell heap) (n0 + j) k
        (HVal.ref (n0 + paths.length))).cells.length =
        (allocCell heap).cells.length := by
      simp [cellSet]
    rw [this, halen, hinv.len, hlenp]
    omega
  · simp
  · rw [hgdlt 0 hpos]
    exact hinv.head0
  · intro j1 j2 hj1 hj2 hEq
    rw [hlenp] at hj1 hj2
    rcases Nat.lt_succ_iff_lt_or_eq.mp hj1 with h1 | h1
    · rcases Nat.lt_succ_iff_lt_or_eq.mp hj2 with h2 | h2
      · rw [hgdlt j1 h1, hgdlt j2 h2] at hEq
        exact hinv.inj j1 j2 h1 h2 hEq
      · subst h2
        rw [hgdlt j1 h1, hgdself] at hEq
        exact absurd hEq (hfresh j1 h1)
    · subst h1
      rcases Nat.lt_succ_iff_lt_or_eq.mp hj2 with h2 | h2
      · rw [hgdself, hgdlt j2 h2] at hEq
        exact absurd hEq.symm (hfresh j2 h2)
      · rw [h2]
  · intro jq hjq kq vq hget
    rw [hlenp] at hjq
    rcases Nat.lt_succ_iff_lt_or_eq.mp hjq with hq | hq
    · by_cases hjj : jq = j
      · subst hjj
        by_cases hkk : kq = k
        · subst hkk
          rw [cellGet_cellSet_same (allocCell heap) (n0 + jq) kq
            (HVal.ref (n0 + paths.length)) haddr2] at hget
          right
          refine ⟨paths.length, by omega, ?_, ?_⟩
          · cases hget
            rfl
          · rw [hgdself, hgdlt jq hq]
        · rw [cellGet_cellSet_ne_key (allocCell heap) (n0 + jq) k kq
              (HVal.ref (n0 + paths.length)) haddr2 (fun hEq => hkk hEq.symm),
            cellGet_allocCell_lt heap (n0 + jq) kq haddr] at hget
          rcases hinv.links jq hq kq vq hget with hdone | ⟨j2, hj2, hv, hp⟩
          · left
            rw [hgdlt jq hq]
            exact hdone
          · right
            refine ⟨j2, by omega, hv, ?_⟩
            rw [hgdlt j2 hj2, hgdlt jq hq]
            exact hp
      · have haddrq : n0 + jq < heap.cells.length := by
          rw [hinv.len]; exact Nat.add_lt_add_left hq n0
        rw [cellGet_cellSet_ne_addr (allocCell heap) (n0 + j) (n0 + jq) k kq
            (HVal.ref (n0 + paths.length))
            (fun hEq => hjj (Nat.add_left_cancel hEq).symm),
          cellGet_allocCell_lt heap (n0 + jq) kq haddrq] at hget
        rcases hinv.links jq hq kq vq hget with hdone | ⟨j2, hj2, hv, hp⟩
        · left
          rw [hgdlt jq hq]
          exact hdone
        · right
          refine ⟨j2, by omega, hv, ?_⟩
          rw [hgdlt j2 hj2, hgdlt jq hq]
          exact hp
    · subst hq
      have hne2 : n0 + j ≠ n0 + paths.length :=
        fun hEq => (by omega : j ≠ paths.length) (Nat.add_left_cancel hEq)
      rw [cellGet_cellSet_ne_addr (allocCell heap) (n0 + j) (n0 + paths.length)
          k kq (HVal.ref (n0 + paths.length)) hne2] at hget
      rw [show n0 + paths.length = heap.cells.length from hinv.len.symm] at hget
      rw [cellGet_allocCell_self heap kq] at hget
      cases hget
  · intro j2 hj2 Q k0 hpath
    rw [hlenp] at hj2
    rcases Nat.lt_succ_iff_lt_or_eq.mp hj2 with h2 | h2
    · rw [hgdlt j2 h2] at hpath
      obtain ⟨j1, hj1, hQ, hdisj⟩ := hinv.parents j2 h2 Q k0 hpath
      rcases hdisj with hlink | hdone
      · have hne3 : ¬ (j1 = j ∧ k0 = k) := by
          intro hand
          obtain ⟨ha, hb⟩ := hand
          subst ha
          subst hb
          rw [hg] at hlink
          cases hlink
        refine ⟨j1, by omega, ?_, Or.inl ?_⟩
        · rw [hgdlt j1 hj1]
          exact hQ
        · have haddr1 : n0 + j1 < heap.cells.length := by
            rw [hinv.len]; exact Nat.add_lt_add_left hj1 n0
          by_cases hjj : j1 = j
          · subst hjj
            have hkk : k0 ≠ k := fun hEq => hne3 ⟨rfl, hEq⟩
            rw [cellGet_cellSet_ne_key (allocCell heap) (n0 + j1) k k0
                (HVal.ref (n0 + paths.length)) haddr2 (fun hEq => hkk hEq.symm),
              cellGet_allocCell_lt heap (n0 + j1) k0 haddr1]
            exact hlink
          · rw [cellGet_cellSet_ne_addr (allocCell heap) (n0 + j) (n0 + j1) k k0
                (HVal.ref (n0 + paths.length))
                (fun hEq => hjj (Nat.add_left_cancel hEq).symm),
              cellGet_allocCell_lt heap (n0 + j1) k0 haddr1]
            exact hlink
      · refine ⟨j1, by omega, ?_, Or.inr hdone⟩
        rw [hgdlt j1 hj1]
        exact hQ
    · subst h2
      rw [hgdself] at hpath
      obtain ⟨hQ, hk0⟩ := concat_inj _ _ _ _ hpath.symm
      refine ⟨j, by omega, ?_, Or.inl ?_⟩
      · rw [hgdlt j hj, hQ]
      · rw [hk0]
        exact cellGet_cellSet_same (allocCell heap) (n0 + j) k
          (HVal.ref (n0 + paths.length)) haddr2

/-- A successful `set_nested_key` into the output region writes only
output cells (cells below `n0` are untouched), preserves the
invariant, and records the written lineage. -/
theorem setNestedHGo_inv (L : List String) :
    ∀ (n0 : Nat) (done paths : List (List String)) (j : Nat)
      (heap heap2 : Heap) (v : HVal),
    HInv n0 heap done paths →
    j < paths.length →
    (∀ P ∈ done, incomp P (paths.getD j [] ++ L) = true) →
    setNestedHGo heap (n0 + j) L v = .ok heap2 →
    ∃ paths2 : List (List String),
      HInv n0 heap2 (done ++ [paths.getD j [] ++ L]) paths2 ∧
      paths.length ≤ paths2.length ∧
      (∀ i, i < paths.length → paths2.getD i [] = paths.getD i []) ∧
      heap.cells.length ≤ heap2.cells.length ∧
      heap2.cells.take n0 = heap.cells.take n0 := by
  induction L with
  | nil =>
      intro n0 done paths j heap heap2 v hinv hj hno hset
      simp [setNestedHGo] at hset
  | cons k rest ih =>
      intro n0 done paths j heap heap2 v hinv hj hno hset
      cases rest with
      | nil =>
          simp only [setNestedHGo, Except.ok.injEq] at hset
          subst hset
          exact ⟨paths, HInv_cellSet_leaf n0 heap done paths j k v hinv hj,
            le_refl _, fun i _ => rfl,
            by simp [cellSet], take_set_of_le _ _ _ _ (Nat.le_add_right n0 j)⟩
      | cons k2 rest2 =>
          cases hg : cellGet heap (n0 + j) k with
          | some v0 =>
              cases v0 with
              | none => simp [setNestedHGo, hg] at hset
              | bool b => simp [setNestedHGo, hg] at hset
              | int n => simp [setNestedHGo, hg] at hset
              | float q => simp [setNestedHGo, hg] at hset
              | str s => simp [setNestedHGo, hg] at hset
              | list xs => simp [setNestedHGo, hg] at hset
              | ref b =>
                  simp only [setNestedHGo, hg] at hset
                  rcases hinv.links j hj k (HVal.ref b) hg with hd | ⟨j2, hj2, hv, hp⟩
                  · have h1 := hno _ hd
                    have h2 : leadsTo (paths.getD j [] ++ [k])
                        (paths.getD j [] ++ k :: k2 :: rest2) = true := by
                      have h3 := leadsTo_append (paths.getD j [] ++ [k]) (k2 :: rest2)
                      simpa [List.append_assoc] using h3
                    exact (incomp_not_leads h1 h2).elim
                  · have hb : b = n0 + j2 := by
                      injection hv
                    subst hb
                    have hpe : paths.getD j2 [] ++ (k2 :: rest2) =
                        paths.getD j [] ++ (k :: k2 :: rest2) := by
                      rw [hp]
                      simp
                    obtain ⟨paths2, hinv2, hle, hext, hhl, htk⟩ :=
                      ih n0 done paths j2 heap heap2 v hinv hj2
                        (fun P hP => by rw [hpe]; exact hno P hP) hset
                    rw [hpe] at hinv2
                    exact ⟨paths2, hinv2, hle, hext, hhl, htk⟩
          | none =>
              simp only [setNestedHGo, hg] at hset
              have hnd : (paths.getD j [] ++ [k]) ∉ done := by
                intro hd
                have h1 := hno _ hd
                have h2 : leadsTo (paths.getD j [] ++ [k])
                    (paths.getD j [] ++ k :: k2 :: rest2) = true := by
                  have h3 := leadsTo_append (paths.getD j [] ++ [k]) (k2 :: rest2)
                  simpa [List.append_assoc] using h3
                exact incomp_not_leads h1 h2
              rw [hinv.len] at hset
              have hinvA := HInv_alloc_link n0 heap done paths j k hinv hj hg hnd
              have hjA : paths.length <
                  (paths ++ [paths.getD j [] ++ [k]]).length := by
                simp
              have hgetA : (paths ++ [paths.getD j [] ++ [k]]).getD
                  paths.length [] = paths.getD j [] ++ [k] :=
                getD_append_self _ _ _
              have hre : (paths.getD j [] ++ [k]) ++ (k2 :: rest2) =
                  paths.getD j [] ++ (k :: k2 :: rest2) := by
                simp
              obtain ⟨paths2, hinv2, hle2, hext2, hhl2, htk2⟩ :=
                ih n0 done (paths ++ [paths.getD j [] ++ [k]]) paths.length
                  _ heap2 v hinvA hjA
                  (fun P hP => by rw [hgetA, hre]; exact hno P hP) hset
              rw [hgetA, hre] at hinv2
              have hlenA : (cellSet (allocCell heap) (n0 + j) k
                  (HVal.ref (n0 + paths.length))).cells.length =
                  heap.cells.length + 1 := by
                simp [cellSet, allocCell]
              refine ⟨paths2, hinv2, ?_, ?_, ?_, ?_⟩
              · have : (paths ++ [paths.getD j [] ++ [k]]).length ≤
                    paths2.length := hle2
                simp at this
                omega
              · intro i hi
                rw [hext2 i (by simp; omega)]
                exact getD_append_lt _ _ _ _ hi
              · rw [hlenA] at hhl2
                omega
              · rw [htk2]
                rw [show (cellSet (allocCell heap) (n0 + j) k
                    (HVal.ref (n0 + paths.length))).cells =
                    ((allocCell heap).cells.set (n0 + j)
                      (assocSet ((allocCell heap).cells.getD (n0 + j) [])
                        k (HVal.ref (n0 + paths.length)))) from rfl]
                rw [take_set_of_le _ _ _ _ (Nat.le_add_right n0 j)]
                exact take_append_of_le _ _ _ (by rw [hinv.len]; omega)

/-- The store step of the found-value branch keeps the invariant and
the frame. -/
theorem finishParamH_inv
    (checkFn : Heap → Restriction → HVal → Except PyErr Bool)
    (es : Nat) (lin : List String) (p : Param) (v : HVal)
    (n0 : Nat) (done paths : List (List String)) (heap heap2 : Heap)
    (hinv : HInv n0 heap done paths)
    (hno : ∀ P ∈ done, incomp P lin = true)
    (h : finishParamH checkFn es lin p v heap n0 = .ok heap2) :
    ∃ paths2, HInv n0 heap2 (done ++ [lin]) paths2 ∧
      heap.cells.length ≤ heap2.cells.length ∧
      heap2.cells.take n0 = heap.cells.take n0 := by
  unfold finishParamH at h
  simp only at h
  cases hset : setNestedHGo heap n0 lin v with
  | error e =>
      rw [hset] at h
      cases hr : (if es ≠ 0 then
          match p.restrictions with
          | some r =>
              match checkFn heap r v with
              | .ok true => (.ok true : Except HErr Bool)
              | .ok false =>
                  if es = 1 then .ok false
                  else .error (.argumentRestriction (joinColon lin))
              | .error e => .error (.pyErr e)
          | Option.none => .ok true
        else .ok true) with
      | ok b => rw [hr] at h; cases h
      | error e2 => rw [hr] at h; cases h
  | ok heapS =>
      have hpos : 0 < paths.length := List.length_pos.mpr hinv.ne
      have hset0 : setNestedHGo heap (n0 + 0) lin v = .ok heapS := hset
      obtain ⟨paths2, hinv2, _, _, hl, ht⟩ :=
        setNestedHGo_inv lin n0 done paths 0 heap heapS v hinv hpos
          (fun P hP => by rw [hinv.head0]; exact hno P hP) hset0
      have hrec : paths.getD 0 [] ++ lin = lin := by
        rw [hinv.head0]
        exact List.nil_append lin
      rw [hrec] at hinv2
      rw [hset] at h
      cases hr : (if es ≠ 0 then
          match p.restrictions with
          | some r =>
              match checkFn heap r v with
              | .ok true => (.ok true : Except HErr Bool)
              | .ok false =>
                  if es = 1 then .ok false
                  else .error (.argumentRestriction (joinColon lin))
              | .error e => .error (.pyErr e)
          | Option.none => .ok true
        else .ok true) with
      | ok b =>
          rw [hr] at h
          simp only [Except.ok.injEq] at h
          subst h
          exact ⟨paths2, hinv2, hl, ht⟩
      | error e2 => rw [hr] at h; cases h

/-- One `validate_args` step writes only output cells and keeps the
invariant, possibly recording the parameter's lineage. -/
theorem processParamH_inv
    (castFn : Heap → Param → HVal → Except PyErr HVal)
    (checkFn : Heap → Restriction → HVal → Except PyErr Bool)
    (er et es argsRoot : Nat) (n0 : Nat)
    (done paths : List (List String)) (heap heap2 : Heap)
    (lp : List String × Param)
    (hinv : HInv n0 heap done paths)
    (hno : ∀ P ∈ done, incomp P lp.1 = true)
    (h : processParamH castFn checkFn er et es argsRoot n0 heap lp = .ok heap2) :
    ∃ done2 paths2,
      HInv n0 heap2 done2 paths2 ∧
      (done2 = done ∨ done2 = done ++ [lp.1]) ∧
      heap.cells.length ≤ heap2.cells.length ∧
      heap2.cells.take n0 = heap.cells.take n0 := by
  unfold processParamH at h
  simp only at h
  cases hg : getNestedH heap (.ref argsRoot) lp.1 with
  | error e =>
      cases e with
      | keyError =>
          simp only [hg] at h
          by_cases hreq : lp.2.required = true
          · rw [if_pos hreq] at h
            by_cases h0 : er = 0
            · rw [if_pos h0] at h
              simp only [Except.ok.injEq] at h
              subst h
              exact ⟨done, paths, hinv, Or.inl rfl, le_refl _, rfl⟩
            · rw [if_neg h0] at h
              by_cases h1 : er = 1
              · rw [if_pos h1] at h
                simp only [Except.ok.injEq] at h
                subst h
                exact ⟨done, paths, hinv, Or.inl rfl, le_refl _, rfl⟩
              · rw [if_neg h1] at h
                cases h
          · rw [if_neg hreq] at h
            cases hd : (match lp.2.default with
                        | some d => pyToH d
                        | Option.none => some HVal.none) with
            | some hv =>
                simp only [hd] at h
                cases hset : setNestedHGo heap n0 lp.1 hv with
                | error e2 => rw [hset] at h; cases h
                | ok heapS =>
                    rw [hset] at h
                    simp only [Except.ok.injEq] at h
                    subst h
                    have hpos : 0 < paths.length := List.length_pos.mpr hinv.ne
                    have hset0 : setNestedHGo heap (n0 + 0) lp.1 hv = .ok heapS :=
                      hset
                    obtain ⟨paths2, hinv2, _, _, hl, ht⟩ :=
                      setNestedHGo_inv lp.1 n0 done paths 0 heap heapS hv hinv
                        hpos (fun P hP => by rw [hinv.head0]; exact hno P hP)
                        hset0
                    have hrec : paths.getD 0 [] ++ lp.1 = lp.1 := by
                      rw [hinv.head0]
                      exact List.nil_append lp.1
                    rw [hrec] at hinv2
                    exact ⟨done ++ [lp.1], paths2, hinv2, Or.inr rfl, hl, ht⟩
            | none => simp only [hd] at h; cases h
      | valueError => simp only [hg] at h; cases h
      | typeError => simp only [hg] at h; cases h
      | indexError => simp only [hg] at h; cases h
      | attributeError => simp only [hg] at h; cases h
  | ok arg =>
      simp only [hg] at h
      cases hc : castFn heap lp.2 arg with
      | ok v =>
          rw [hc] at h
          obtain ⟨paths2, hinv2, hl, ht⟩ :=
            finishParamH_inv checkFn es lp.1 lp.2 v n0 done paths heap heap2
              hinv hno h
          exact ⟨done ++ [lp.1], paths2, hinv2, Or.inr rfl, hl, ht⟩
      | error e =>
          rw [hc] at h
          cases e with
          | valueError =>
              simp only at h
              by_cases h0 : et = 0
              · rw [if_pos h0] at h
                obtain ⟨paths2, hinv2, hl, ht⟩ :=
                  finishParamH_inv checkFn es lp.1 lp.2 arg n0 done paths heap
                    heap2 hinv hno h
                exact ⟨done ++ [lp.1], paths2, hinv2, Or.inr rfl, hl, ht⟩
              · rw [if_neg h0] at h
                by_cases h1 : et = 1
                · rw [if_pos h1] at h
                  obtain ⟨paths2, hinv2, hl, ht⟩ :=
                    finishParamH_inv checkFn es lp.1 lp.2 arg n0 done paths heap
                      heap2 hinv hno h
                  exact ⟨done ++ [lp.1], paths2, hinv2, Or.inr rfl, hl, ht⟩
                · rw [if_neg h1] at h
                  cases h
          | keyError => cases h
          | typeError => cases h
          | indexError => cases h
          | attributeError => cases h

/-- The whole loop writes only output cells. -/
theorem validateHAux_inv
    (castFn : Heap → Param → HVal → Except PyErr HVal)
    (checkFn : Heap → Restriction → HVal → Except PyErr Bool)
    (er et es argsRoot : Nat) (n0 : Nat)
    (ps : List (List String × Param)) :
    ∀ (done paths : List (List String)) (heap heap2 : Heap),
    HInv n0 heap done paths →
    (∀ P ∈ done, ∀ lp ∈ ps, incomp P lp.1 = true) →
    ps.Pairwise lineageIncomp →
    validateHAux castFn checkFn er et es argsRoot n0 ps heap = .ok heap2 →
    heap.cells.length ≤ heap2.cells.length ∧
    heap2.cells.take n0 = heap.cells.take n0 := by
  induction ps with
  | nil =>
      intro done paths heap heap2 hinv hdone hpair h
      simp only [validateHAux, Except.ok.injEq] at h
      subst h
      exact ⟨le_refl _, rfl⟩
  | cons lp rest ihp =>
      intro done paths heap heap2 hinv hdone hpair h
      cases hp : processParamH castFn checkFn er et es argsRoot n0 heap lp with
      | error e => simp [validateHAux, hp] at h
      | ok heapM =>
          simp only [validateHAux, hp] at h
          obtain ⟨done2, paths2, hinv2, hd2, hl2, ht2⟩ :=
            processParamH_inv castFn checkFn er et es argsRoot n0 done paths
              heap heapM lp hinv
              (fun P hP => hdone P hP lp (List.mem_cons_self lp rest)) hp
          rw [List.pairwise_cons] at hpair
          have hdone2 : ∀ P ∈ done2, ∀ q ∈ rest, incomp P q.1 = true := by
            intro P hP q hq
            rcases hd2 with rfl | rfl
            · exact hdone P hP q (List.mem_cons_of_mem _ hq)
            · rcases List.mem_append.mp hP with hPold | hPnew
              · exact hdone P hPold q (List.mem_cons_of_mem _ hq)
              · rw [List.mem_singleton.mp hPnew]
                exact hpair.1 q hq
          obtain ⟨hl3, ht3⟩ :=
            ihp done2 paths2 heapM heap2 hinv2 hdone2 hpair.2 h
          exact ⟨le_trans hl2 hl3, by rw [ht3, ht2]⟩

/-- The invariant holds right after allocating `validated_args = {}`. -/
theorem HInv_init (heap : Heap) :
    HInv heap.cells.length (allocCell heap) [] [[]] := by
  refine ⟨?_, by simp, rfl, ?_, ?_, ?_⟩
  · simp [allocCell]
  · intro j1 j2 h1 h2 _
    simp only [List.length_singleton] at h1 h2
    omega
  · intro j hj k v hget
    simp only [List.length_singleton] at hj
    have hj0 : j = 0 := by omega
    subst hj0
    rw [show heap.cells.length + 0 = heap.cells.length from rfl] at hget
    rw [cellGet_allocCell_self heap k] at hget
    cases hget
  · intro j2 hj2 Q k hpath
    simp only [List.length_singleton] at hj2
    have hj0 : j2 = 0 := by omega
    subst hj0
    simp at hpath

/-- C9: `validate_args` never mutates its input.  For every input
heap, every argument dictionary address, every well-formed model and
every read-only coercion and restriction check, a returning heap-level
run leaves every pre-existing heap cell — hence every nesting level of
the input dictionary — unchanged, and returns a freshly allocated
output dictionary whose address is new, in particular distinct from
the input's. -/
theorem c9_no_mutation
    (castFn : Heap → Param → HVal → Except PyErr HVal)
    (checkFn : Heap → Restriction → HVal → Except PyErr Bool)
    (m : CTDModel) (er et es : Nat) (heap0 : Heap) (argsRoot : Nat)
    (heap1 : Heap) (outRoot : Nat)
    (hwf : wfModel m = true)
    (h : validateH castFn checkFn m er et es heap0 argsRoot =
        .ok (heap1, outRoot)) :
    heap1.cells.take heap0.cells.length = heap0.cells ∧
    heap0.cells.length ≤ heap1.cells.length ∧
    outRoot = heap0.cells.length ∧
    (argsRoot < heap0.cells.length → outRoot ≠ argsRoot) := by
  unfold validateH at h
  simp only at h
  cases hrun : validateHAux castFn checkFn er et es argsRoot
      heap0.cells.length (listParameters m) (allocCell heap0) with
  | error e => simp only [hrun] at h; cases h
  | ok heap2 =>
      simp only [hrun, Except.ok.injEq, Prod.mk.injEq] at h
      obtain ⟨h1, h2⟩ := h
      rw [← h1, ← h2]
      obtain ⟨hl, ht⟩ :=
        validateHAux_inv castFn checkFn er et es argsRoot
          heap0.cells.length (listParameters m) [] [[]]
          (allocCell heap0) heap2 (HInv_init heap0)
          (fun P hP => (List.not_mem_nil P hP).elim)
          (listParameters_pairwise m hwf) hrun
      have htake0 : (allocCell heap0).cells.take heap0.cells.length =
          heap0.cells := by
        show (heap0.cells ++ [[]]).take heap0.cells.length = heap0.cells
        exact List.take_left heap0.cells [[]]
      have hlen0 : (allocCell heap0).cells.length = heap0.cells.length + 1 := by
        simp [allocCell]
      refine ⟨?_, ?_, rfl, ?_⟩
      · rw [ht, htake0]
      · rw [hlen0] at hl
        omega
      · intro hargs
        omega

/-- Witness for C9: the one-required-parameter model run over a
one-cell heap holding `{'r': 'x'}`, with the identity coercion and a
trivially true restriction check.  The input cell survives unchanged
and the output root is the fresh address 1. -/
theorem c9_no_mutation_witness :
    ([[("r", HVal.str "x")], [("r", HVal.str "x")]] :
        List (List (String × HVal))).take 1 = [[("r", HVal.str "x")]] ∧
    1 ≤ 2 ∧ (1 : Nat) = 1 ∧ (0 < 1 → (1 : Nat) ≠ 0) :=
  c9_no_mutation (fun _ _ v => .ok v) (fun _ _ _ => .ok true) modelReq 0 0 0
    ⟨[[("r", HVal.str "x")]]⟩ 0 ⟨[[("r", HVal.str "x")], [("r", HVal.str "x")]]⟩
    1 rfl rfl
